import Mathlib

/-!
Verification of the forest-guided clustering core (`interpret_rf.py`).

The development shallowly embeds the functions of the source file:
matrices are lists of lists of rationals (`numpy` float arrays carry exact
rational values in all the scenarios considered here), cluster labelings are
lists of naturals, and the dictionaries of the source are total or optional
functions.  The global numpy random generator is modelled as an explicit
stream `ℕ → ℕ` of raw draws; `np.random.choice(np.arange(n), n)` takes the
next `n` values of the stream reduced modulo `n`.  Python exceptions
(`KeyError`, `ValueError`) are modelled by `Option`: a failing computation
returns `none`.  The value `-np.inf`, which the greedy matching writes into
the Jaccard matrix, is modelled by `⊥` in `WithBot ℚ`.
-/

/-- Rational matrices, the embedding of 2-d numpy float arrays. -/
abbrev Mat : Type := List (List ℚ)

/-- Matrices over `WithBot ℚ`; `⊥` models `-np.inf`. -/
abbrev MatB : Type := List (List (WithBot ℚ))

/-- Entry read `M[r][c]` with numpy's float default irrelevant: out-of-range
reads never occur in the verified runs, the default is `0`. -/
def entryQ (M : Mat) (r c : ℕ) : ℚ := (M.getD r []).getD c 0

/-- Entry read on a `WithBot ℚ` matrix, default `⊥`. -/
def entryB (J : MatB) (r c : ℕ) : WithBot ℚ := (J.getD r []).getD c ⊥

/-- Lift a rational matrix into `WithBot ℚ` (the Jaccard matrix before any
`-np.inf` has been written into it). -/
def liftMat (J : Mat) : MatB := J.map (fun row => row.map (fun q : ℚ => WithBot.some q))

/-- Model of `np.random.choice(np.arange(n), n)` on the ambient generator
stream: the draws at positions `off, off+1, …` reduced modulo `n`. -/
def npChoice (n count : ℕ) (stream : ℕ → ℕ) (off : ℕ) : List ℕ :=
  (List.range count).map (fun t => stream (off + t) % n)

/-- Embedding of `bootstrap_matrix` (source lines 169–176): resample row and
column indices by the same drawn index list and return the resampled matrix
together with the bootstrapped-to-original index mapping.  The numpy advanced
indexing `M[:,samples][samples,:]` builds a fresh array from reads of `M`. -/
def bootstrap_matrix (M : Mat) (stream : ℕ → ℕ) (off : ℕ) : Mat × List ℕ :=
  let lm := M.length
  let samples := npChoice lm lm stream off
  (samples.map (fun p => samples.map (fun q => entryQ M p q)), samples)

/-- Symmetry of a matrix on the index range `0..n-1`. -/
def SymmMat (M : Mat) (n : ℕ) : Prop := ∀ p q, p < n → q < n → entryQ M p q = entryQ M q p

section BasicLemmas

theorem getD_map_of_lt {α β : Type} (f : α → β) (l : List α) (n : ℕ) (hn : n < l.length)
    (d : β) (d0 : α) : (l.map f).getD n d = f (l.getD n d0) := by
  induction l generalizing n with
  | nil => simp at hn
  | cons x xs ih =>
    cases n with
    | zero => simp [List.getD]
    | succ m =>
      simp only [List.length_cons, Nat.succ_lt_succ_iff] at hn
      simpa [List.getD] using ih m hn

theorem npChoice_length (n count : ℕ) (stream : ℕ → ℕ) (off : ℕ) :
    (npChoice n count stream off).length = count := by
  simp [npChoice]

theorem npChoice_lt (n count : ℕ) (stream : ℕ → ℕ) (off : ℕ) (hn : 0 < n) :
    ∀ x ∈ npChoice n count stream off, x < n := by
  intro x hx
  simp only [npChoice, List.mem_map] at hx
  obtain ⟨t, _, rfl⟩ := hx
  exact Nat.mod_lt _ hn

theorem getD_mem_of_lt {α : Type} (l : List α) (n : ℕ) (hn : n < l.length) (d : α) :
    l.getD n d ∈ l := by
  induction l generalizing n with
  | nil => simp at hn
  | cons x xs ih =>
    cases n with
    | zero => simp [List.getD]
    | succ m =>
      simp only [List.length_cons, Nat.succ_lt_succ_iff] at hn
      exact List.mem_cons_of_mem _ (by simpa [List.getD] using ih m hn)

end BasicLemmas

section BootstrapMatrix

theorem bootstrap_matrix_entry (M : Mat) (n : ℕ) (hlen : M.length = n)
    (stream : ℕ → ℕ) (off : ℕ) (p q : ℕ) (hp : p < n) (hq : q < n) :
    entryQ (bootstrap_matrix M stream off).1 p q =
      entryQ M ((bootstrap_matrix M stream off).2.getD p 0)
        ((bootstrap_matrix M stream off).2.getD q 0) := by
  have hlsamp : (npChoice M.length M.length stream off).length = M.length :=
    npChoice_length _ _ _ _
  simp only [bootstrap_matrix]
  rw [entryQ, getD_map_of_lt _ _ p (by omega) [] 0, getD_map_of_lt _ _ q (by omega) 0 0]

theorem bootstrap_matrix_shape (M : Mat) (n : ℕ) (hlen : M.length = n)
    (stream : ℕ → ℕ) (off : ℕ) :
    (bootstrap_matrix M stream off).1.length = n ∧
      ∀ row ∈ (bootstrap_matrix M stream off).1, row.length = n := by
  constructor
  · simp [bootstrap_matrix, npChoice, hlen]
  · intro row hrow
    simp only [bootstrap_matrix, List.mem_map] at hrow
    obtain ⟨p, _, rfl⟩ := hrow
    simp [npChoice, hlen]

/-- Claim C6: every resampled entry satisfies
`matrix'[p,q] = matrix[mapping[p], mapping[q]]`; rows and columns are
resampled by the same index list, so the output has the input's shape and a
symmetric input yields a symmetric output. -/
theorem bootstrap_matrix_resamples (M : Mat) (n : ℕ) (hlen : M.length = n)
    (stream : ℕ → ℕ) (off : ℕ) :
    (∀ p q, p < n → q < n →
        entryQ (bootstrap_matrix M stream off).1 p q =
          entryQ M ((bootstrap_matrix M stream off).2.getD p 0)
            ((bootstrap_matrix M stream off).2.getD q 0)) ∧
      (bootstrap_matrix M stream off).1.length = n ∧
      (∀ row ∈ (bootstrap_matrix M stream off).1, row.length = n) ∧
      (SymmMat M n → SymmMat (bootstrap_matrix M stream off).1 n) := by
  refine ⟨fun p q hp hq => bootstrap_matrix_entry M n hlen stream off p q hp hq,
    (bootstrap_matrix_shape M n hlen stream off).1,
    (bootstrap_matrix_shape M n hlen stream off).2, ?_⟩
  intro hsy p q hp hq
  have hn : 0 < n := by omega
  have hmap : ∀ x ∈ (bootstrap_matrix M stream off).2, x < n := by
    intro x hx
    have := npChoice_lt M.length M.length stream off (by omega) x (by
      simpa [bootstrap_matrix] using hx)
    omega
  have hlsamp : (bootstrap_matrix M stream off).2.length = n := by
    simp [bootstrap_matrix, npChoice, hlen]
  have hp2 : (bootstrap_matrix M stream off).2.getD p 0 < n :=
    hmap _ (getD_mem_of_lt _ _ (by omega) _)
  have hq2 : (bootstrap_matrix M stream off).2.getD q 0 < n :=
    hmap _ (getD_mem_of_lt _ _ (by omega) _)
  rw [bootstrap_matrix_entry M n hlen stream off p q hp hq,
    bootstrap_matrix_entry M n hlen stream off q p hq hp]
  exact hsy _ _ hp2 hq2

/-- Witness for `bootstrap_matrix_resamples` at a concrete symmetric 2×2
matrix and stream. -/
theorem bootstrap_matrix_resamples_witness :
    ([[ (0:ℚ), 2],[2, 0]] : Mat).length = 2 ∧
      (∀ p q, p < 2 → q < 2 →
        entryQ (bootstrap_matrix [[(0:ℚ), 2],[2, 0]] (fun i => i + 1) 0).1 p q =
          entryQ [[(0:ℚ), 2],[2, 0]]
            ((bootstrap_matrix [[(0:ℚ), 2],[2, 0]] (fun i => i + 1) 0).2.getD p 0)
            ((bootstrap_matrix [[(0:ℚ), 2],[2, 0]] (fun i => i + 1) 0).2.getD q 0)) ∧
      (bootstrap_matrix [[(0:ℚ), 2],[2, 0]] (fun i => i + 1) 0).1.length = 2 ∧
      (∀ row ∈ (bootstrap_matrix [[(0:ℚ), 2],[2, 0]] (fun i => i + 1) 0).1, row.length = 2) ∧
      (SymmMat [[(0:ℚ), 2],[2, 0]] 2 →
        SymmMat (bootstrap_matrix [[(0:ℚ), 2],[2, 0]] (fun i => i + 1) 0).1 2) := by
  refine ⟨by decide, ?_⟩
  exact bootstrap_matrix_resamples [[(0:ℚ), 2],[2, 0]] 2 (by decide) (fun i => i + 1) 0

end BootstrapMatrix

section Greedy

/-- Maximum of a list of `WithBot ℚ` values, the model of `np.max` on a float
vector that may hold `-np.inf`; the empty list gives `⊥`, and the vectors the
source maximizes over are never empty. -/
def listMax (l : List (WithBot ℚ)) : WithBot ℚ := l.foldr max ⊥

/-- First index attaining the maximum of the list, the model of `np.argmax`. -/
def argmax : List (WithBot ℚ) → ℕ
  | [] => 0
  | x :: xs => if listMax xs ≤ x then 0 else argmax xs + 1

/-- Model of the two elimination writes of the greedy matching (source lines
158–159): set row `i` and column `j` of the Jaccard matrix to `-np.inf`. -/
def elimRC : ℕ → ℕ → MatB → MatB
  | _, _, [] => []
  | 0, j, row :: rest => (row.map fun _ => ⊥) :: rest.map (fun r => r.set j ⊥)
  | i + 1, j, row :: rest => row.set j ⊥ :: elimRC i j rest

/-- One elimination step of the greedy matching (source lines 155–159):
`best` is `jaccard_matrix.max(axis=1).max()`, `i` the row argmax of the
row-maximum vector, `j` the argmax inside row `i`; the returned matrix has row
`i` and column `j` eliminated. -/
def greedyStep (J : MatB) : (ℕ × ℕ × WithBot ℚ) × MatB :=
  let rowMaxes := J.map listMax
  let best := listMax rowMaxes
  let i := argmax rowMaxes
  let j := argmax (J.getD i [])
  ((i, j, best), elimRC i j J)

/-- Greedy matching loop (source line 154): `n` elimination steps, recording
for each step the picked row, picked column, picked value, and the matrix the
step started from. -/
def greedyTrace : ℕ → MatB → List ((ℕ × ℕ × WithBot ℚ) × MatB)
  | 0, _ => []
  | n + 1, J => ((greedyStep J).1, J) :: greedyTrace n (greedyStep J).2

end Greedy

section GreedyLemmas

theorem le_listMax {l : List (WithBot ℚ)} {x : WithBot ℚ} (hx : x ∈ l) : x ≤ listMax l := by
  induction l with
  | nil => simp at hx
  | cons y ys ih =>
    rcases List.mem_cons.1 hx with rfl | h
    · exact le_max_left _ _
    · exact le_trans (ih h) (le_max_right _ _)

theorem listMax_le {l : List (WithBot ℚ)} {v : WithBot ℚ} (h : ∀ x ∈ l, x ≤ v) :
    listMax l ≤ v := by
  induction l with
  | nil => simp [listMax]
  | cons y ys ih =>
    simp only [listMax, List.foldr_cons, max_le_iff]
    exact ⟨h y (List.mem_cons_self _ _), ih (fun x hx => h x (List.mem_cons_of_mem _ hx))⟩

theorem listMax_mem {l : List (WithBot ℚ)} (h : l ≠ []) : listMax l ∈ l := by
  induction l with
  | nil => exact absurd rfl h
  | cons y ys ih =>
    by_cases hys : ys = []
    · subst hys; simp [listMax]
    · have hm : listMax (y :: ys) = max y (listMax ys) := rfl
      rcases max_cases y (listMax ys) with ⟨heq, _⟩ | ⟨heq, _⟩
      · rw [hm, heq]
        exact List.mem_cons_self _ _
      · rw [hm, heq]
        exact List.mem_cons_of_mem _ (ih hys)

theorem getD_le_listMax (l : List (WithBot ℚ)) (n : ℕ) : l.getD n ⊥ ≤ listMax l := by
  by_cases hn : n < l.length
  · exact le_listMax (getD_mem_of_lt l n hn _)
  · rw [List.getD_eq_default _ _ (by omega)]
    exact bot_le

theorem getD_eq_of_mem {α : Type} {l : List α} {x : α} (hx : x ∈ l) (d : α) :
    ∃ n, n < l.length ∧ l.getD n d = x := by
  obtain ⟨n, hn, rfl⟩ := List.mem_iff_getElem.1 hx
  exact ⟨n, hn, List.getD_eq_getElem l d hn⟩

theorem listMax_eq_of {l : List (WithBot ℚ)} {v : WithBot ℚ} {n : ℕ}
    (hn : n < l.length) (hv : l.getD n ⊥ = v) (hb : ∀ m, l.getD m ⊥ ≤ v) :
    listMax l = v := by
  refine le_antisymm (listMax_le ?_) (hv ▸ getD_le_listMax l n)
  intro x hx
  obtain ⟨m, _, hm⟩ := getD_eq_of_mem hx ⊥
  exact hm ▸ hb m

theorem listMax_eq_bot {l : List (WithBot ℚ)} (h : ∀ x ∈ l, x = ⊥) : listMax l = ⊥ :=
  le_antisymm (listMax_le (fun x hx => le_of_eq (h x hx))) bot_le

theorem argmax_lt_length {l : List (WithBot ℚ)} (h : l ≠ []) : argmax l < l.length := by
  induction l with
  | nil => exact absurd rfl h
  | cons y ys ih =>
    by_cases hys : ys = []
    · subst hys; simp [argmax, listMax]
    · simp only [argmax]
      split_ifs
      · simp
      · have := ih hys
        simp only [List.length_cons]
        omega

theorem getD_argmax {l : List (WithBot ℚ)} (h : l ≠ []) :
    l.getD (argmax l) ⊥ = listMax l := by
  induction l with
  | nil => exact absurd rfl h
  | cons y ys ih =>
    by_cases hys : ys = []
    · subst hys; simp [argmax, listMax]
    · simp only [argmax]
      split_ifs with hle
      · simp only [List.getD_cons_zero]
        have hm : listMax (y :: ys) = max y (listMax ys) := rfl
        rw [hm, max_eq_left hle]
      · have hlt : y < listMax ys := lt_of_not_le hle
        have hm : listMax (y :: ys) = max y (listMax ys) := rfl
        rw [List.getD_cons_succ, ih hys, hm, max_eq_right (le_of_lt hlt)]

theorem argmax_eq_of {l : List (WithBot ℚ)} {v : WithBot ℚ} {n : ℕ}
    (hn : n < l.length) (hv : l.getD n ⊥ = v) (hb : ∀ m, l.getD m ⊥ ≤ v)
    (hstrict : ∀ m, m < n → l.getD m ⊥ < v) : argmax l = n := by
  induction l generalizing n with
  | nil => simp at hn
  | cons y ys ih =>
    have hmax : listMax (y :: ys) = v := listMax_eq_of hn hv hb
    cases n with
    | zero =>
      simp only [List.getD_cons_zero] at hv
      have hys : listMax ys ≤ y := by
        have hle2 : listMax ys ≤ listMax (y :: ys) := listMax_le
          (fun x hx => le_listMax (List.mem_cons_of_mem _ hx))
        rw [hmax, ← hv] at hle2
        exact hle2
      simp [argmax, hys]
    | succ m =>
      rw [List.getD_cons_succ] at hv
      have hy : y < v := by
        have h0 := hstrict 0 (Nat.succ_pos m)
        simpa using h0
      have hmaxys : listMax ys = v := by
        have hle : listMax ys ≤ v := listMax_le (fun x hx => by
          obtain ⟨t, _, ht⟩ := getD_eq_of_mem hx ⊥
          have := hb (t + 1)
          rw [List.getD_cons_succ, ht] at this
          exact this)
        have hge : v ≤ listMax ys := hv ▸ getD_le_listMax ys m
        exact le_antisymm hle hge
      have hnotle : ¬ listMax ys ≤ y := by
        rw [hmaxys]
        exact not_le_of_lt hy
      simp only [argmax, hnotle, if_false]
      have hrec := ih (n := m) (by simpa using hn) hv
        (fun t => by
          have := hb (t + 1)
          rwa [List.getD_cons_succ] at this)
        (fun t ht => by
          have := hstrict (t + 1) (Nat.succ_lt_succ ht)
          rwa [List.getD_cons_succ] at this)
      omega

theorem getD_set {α : Type} (l : List α) (j c : ℕ) (x d : α) :
    (l.set j x).getD c d = if c = j ∧ j < l.length then x else l.getD c d := by
  induction l generalizing j c with
  | nil => simp
  | cons y ys ih =>
    cases j with
    | zero =>
      cases c with
      | zero => simp
      | succ m => simp
    | succ j' =>
      cases c with
      | zero => simp
      | succ m =>
        simp only [List.set_cons_succ, List.getD_cons_succ, ih, List.length_cons]
        by_cases h : m = j' ∧ j' < ys.length
        · rw [if_pos h, if_pos (by omega)]
        · rw [if_neg h, if_neg (by omega)]

theorem entryB_nil (r c : ℕ) : entryB [] r c = ⊥ := by
  simp [entryB, List.getD]

theorem entryB_cons_zero (row : List (WithBot ℚ)) (rest : MatB) (c : ℕ) :
    entryB (row :: rest) 0 c = row.getD c ⊥ := rfl

theorem entryB_cons_succ (row : List (WithBot ℚ)) (rest : MatB) (r c : ℕ) :
    entryB (row :: rest) (r + 1) c = entryB rest r c := by
  simp [entryB, List.getD_cons_succ]

theorem getD_map_const_bot (l : List (WithBot ℚ)) (c : ℕ) :
    (l.map (fun _ => (⊥ : WithBot ℚ))).getD c ⊥ = ⊥ := by
  by_cases hc : c < l.length
  · rw [getD_map_of_lt _ _ c hc ⊥ ⊥]
  · rw [List.getD_eq_default _ _ (by simpa using hc)]

theorem getD_set_bot (l : List (WithBot ℚ)) (j c : ℕ) :
    (l.set j ⊥).getD c ⊥ = if c = j then ⊥ else l.getD c ⊥ := by
  rw [getD_set]
  by_cases hc : c = j
  · subst hc
    by_cases hj : c < l.length
    · rw [if_pos ⟨rfl, hj⟩, if_pos rfl]
    · rw [if_neg (by tauto), if_pos rfl, List.getD_eq_default _ _ (by omega)]
  · rw [if_neg (by tauto), if_neg hc]

theorem entryB_elimRC (i j : ℕ) (J : MatB) (r c : ℕ) :
    entryB (elimRC i j J) r c = if r = i ∨ c = j then ⊥ else entryB J r c := by
  induction J generalizing i r with
  | nil =>
    have h : elimRC i j [] = [] := by cases i <;> rfl
    rw [h]
    split_ifs <;> simp [entryB_nil]
  | cons row rest ih =>
    cases i with
    | zero =>
      cases r with
      | zero =>
        have h : elimRC 0 j (row :: rest) =
            (row.map fun _ => ⊥) :: rest.map (fun t => t.set j ⊥) := rfl
        rw [h, entryB_cons_zero, getD_map_const_bot, if_pos (Or.inl rfl)]
      | succ s =>
        have h : elimRC 0 j (row :: rest) =
            (row.map fun _ => ⊥) :: rest.map (fun t => t.set j ⊥) := rfl
        have hL : entryB (rest.map (fun t => t.set j ⊥)) s c =
            if c = j then ⊥ else entryB rest s c := by
          by_cases hs : s < rest.length
          · rw [entryB, getD_map_of_lt _ _ s hs [] [], getD_set_bot]
            rfl
          · have h1 : (rest.map (fun t => t.set j ⊥)).getD s [] = [] :=
              List.getD_eq_default _ _ (by rw [List.length_map]; omega)
            have h2 : rest.getD s [] = [] := List.getD_eq_default _ _ (by omega)
            simp only [entryB, h1, h2]
            split_ifs <;> simp [List.getD]
        rw [h, entryB_cons_succ, hL, entryB_cons_succ]
        by_cases hc : c = j
        · rw [if_pos hc, if_pos (Or.inr hc)]
        · rw [if_neg hc, if_neg (fun hor => hor.elim (Nat.succ_ne_zero s) hc)]
    | succ i' =>
      cases r with
      | zero =>
        have h : elimRC (i' + 1) j (row :: rest) =
            row.set j ⊥ :: elimRC i' j rest := rfl
        rw [h, entryB_cons_zero, getD_set_bot, entryB_cons_zero]
        by_cases hc : c = j
        · rw [if_pos hc, if_pos (Or.inr hc)]
        · rw [if_neg hc,
            if_neg (fun hor => hor.elim (fun h0 => Nat.succ_ne_zero i' h0.symm) hc)]
      | succ s =>
        have h : elimRC (i' + 1) j (row :: rest) =
            row.set j ⊥ :: elimRC i' j rest := rfl
        rw [h, entryB_cons_succ, ih, entryB_cons_succ]
        by_cases hor : s = i' ∨ c = j
        · rw [if_pos hor, if_pos (by omega)]
        · rw [if_neg hor, if_neg (by omega)]

theorem elimRC_length (i j : ℕ) (J : MatB) : (elimRC i j J).length = J.length := by
  induction J generalizing i with
  | nil => simp [elimRC]
  | cons row rest ih =>
    cases i with
    | zero => simp [elimRC]
    | succ i' => simp [elimRC, ih]

theorem elimRC_rows (i j : ℕ) (J : MatB) (k : ℕ) (h : ∀ row ∈ J, row.length = k) :
    ∀ row ∈ elimRC i j J, row.length = k := by
  induction J generalizing i with
  | nil => simp [elimRC]
  | cons row rest ih =>
    cases i with
    | zero =>
      intro r hr
      simp only [elimRC, List.mem_cons] at hr
      rcases hr with rfl | hr
      · simpa using h row (List.mem_cons_self _ _)
      · simp only [List.mem_map] at hr
        obtain ⟨r0, hr0, rfl⟩ := hr
        simpa using h r0 (List.mem_cons_of_mem _ hr0)
    | succ i' =>
      intro r hr
      simp only [elimRC, List.mem_cons] at hr
      rcases hr with rfl | hr
      · simpa using h row (List.mem_cons_self _ _)
      · exact ih i' (fun r0 hr0 => h r0 (List.mem_cons_of_mem _ hr0)) r hr


end GreedyLemmas

section GreedyInvariant

/-- Well-formedness of a rational Jaccard matrix: `k` rows of `k` entries,
all entries nonnegative (as Jaccard indices always are). -/
def MatOK (J0 : Mat) (k : ℕ) : Prop :=
  J0.length = k ∧ (∀ row ∈ J0, row.length = k) ∧ ∀ r c, 0 ≤ entryQ J0 r c

/-- Invariant of the greedy elimination loop: the current matrix `J` agrees
with the starting matrix `J0` outside the ghost sets `R` of eliminated rows
and `C` of eliminated columns, which have been written to `-np.inf`. -/
def GreedyInv (J0 : Mat) (k : ℕ) (J : MatB) (R C : Finset ℕ) : Prop :=
  J.length = k ∧ (∀ row ∈ J, row.length = k) ∧
    R ⊆ Finset.range k ∧ C ⊆ Finset.range k ∧ R.card = C.card ∧
    ∀ r c, entryB J r c =
      if r ∈ R ∨ c ∈ C ∨ k ≤ r ∨ k ≤ c then ⊥ else ((entryQ J0 r c : ℚ) : WithBot ℚ)

theorem liftMat_length (J0 : Mat) : (liftMat J0).length = J0.length := by
  rw [liftMat, List.length_map]

theorem liftMat_getD (J0 : Mat) (r : ℕ) (hr : r < J0.length) :
    (liftMat J0).getD r [] = (J0.getD r []).map (fun q : ℚ => WithBot.some q) := by
  rw [liftMat, getD_map_of_lt _ _ r hr [] []]

theorem entryB_liftMat (J0 : Mat) (r c : ℕ) (hr : r < J0.length)
    (hc : c < (J0.getD r []).length) :
    entryB (liftMat J0) r c = ((entryQ J0 r c : ℚ) : WithBot ℚ) := by
  rw [entryB, liftMat_getD J0 r hr, getD_map_of_lt _ _ c hc ⊥ 0]
  rfl

theorem greedyInv_init {J0 : Mat} {k : ℕ} (hJ0 : MatOK J0 k) :
    GreedyInv J0 k (liftMat J0) ∅ ∅ := by
  obtain ⟨hlen, hrows, _⟩ := hJ0
  refine ⟨by rw [liftMat_length, hlen], ?_, by simp, by simp, rfl, ?_⟩
  · intro row hrow
    simp only [liftMat, List.mem_map] at hrow
    obtain ⟨r0, hr0, rfl⟩ := hrow
    rw [List.length_map]
    exact hrows r0 hr0
  · intro r c
    simp only [Finset.not_mem_empty, false_or]
    by_cases hr : r < k
    · by_cases hc : c < k
      · have hrl : (J0.getD r []).length = k := hrows _ (getD_mem_of_lt _ _ (by omega) _)
        rw [entryB_liftMat J0 r c (by omega) (by omega), if_neg (by omega)]
      · rw [entryB, liftMat_getD J0 r (by omega), List.getD_eq_default _ _ (by
          rw [List.length_map, hrows _ (getD_mem_of_lt _ _ (by omega) _)]
          omega), if_pos (by omega)]
    · have hoob : (liftMat J0).getD r [] = [] := by
        refine List.getD_eq_default _ _ ?_
        rw [liftMat_length]
        omega
      rw [entryB, hoob, if_pos (by omega)]
      simp [List.getD]

theorem greedyStep_spec {J0 : Mat} {k : ℕ} {J : MatB} {R C : Finset ℕ}
    (hJ0 : MatOK J0 k) (hInv : GreedyInv J0 k J R C) (hcard : R.card < k) :
    (greedyStep J).1.1 < k ∧ (greedyStep J).1.1 ∉ R ∧
      (greedyStep J).1.2.1 < k ∧ (greedyStep J).1.2.1 ∉ C ∧
      entryB J (greedyStep J).1.1 (greedyStep J).1.2.1 = (greedyStep J).1.2.2 ∧
      (∀ r c, entryB J r c ≤ (greedyStep J).1.2.2) ∧
      (greedyStep J).2 = elimRC (greedyStep J).1.1 (greedyStep J).1.2.1 J ∧
      GreedyInv J0 k (greedyStep J).2
        (insert (greedyStep J).1.1 R) (insert (greedyStep J).1.2.1 C) := by
  obtain ⟨hlen, hrows, hRk, hCk, hRC, hent⟩ := hInv
  have hkpos : 0 < k := by omega
  have hrmlen : (J.map listMax).length = k := by simpa using hlen
  have hrm : ∀ r, r < k → (J.map listMax).getD r ⊥ = listMax (J.getD r []) := by
    intro r hr
    exact getD_map_of_lt _ _ r (by omega) ⊥ []
  have hub : ∀ r c, entryB J r c ≤ listMax (J.map listMax) := by
    intro r c
    by_cases hr : r < k
    · calc entryB J r c ≤ listMax (J.getD r []) := getD_le_listMax _ _
        _ = (J.map listMax).getD r ⊥ := (hrm r hr).symm
        _ ≤ listMax (J.map listMax) := getD_le_listMax _ _
    · rw [hent r c, if_pos (by omega)]
      exact bot_le
  have hfresh : ∀ (S : Finset ℕ), S ⊆ Finset.range k → S.card < k → ∃ a, a < k ∧ a ∉ S := by
    intro S hS hSc
    by_contra hcon
    push_neg at hcon
    have hsub : Finset.range k ⊆ S := by
      intro a ha
      exact hcon a (Finset.mem_range.1 ha)
    have := Finset.card_le_card hsub
    simp only [Finset.card_range] at this
    omega
  obtain ⟨i0, hi0k, hi0R⟩ := hfresh R hRk hcard
  obtain ⟨j0, hj0k, hj0C⟩ := hfresh C hCk (by omega)
  have hlb : ((entryQ J0 i0 j0 : ℚ) : WithBot ℚ) ≤ listMax (J.map listMax) := by
    have := hub i0 j0
    rwa [hent i0 j0, if_neg (by push_neg; exact ⟨hi0R, hj0C, by omega, by omega⟩)] at this
  have hbestne : listMax (J.map listMax) ≠ ⊥ := by
    intro hcon
    rw [hcon] at hlb
    exact WithBot.not_coe_le_bot _ hlb
  have hrmne : J.map listMax ≠ [] := by
    intro hcon
    have : (J.map listMax).length = 0 := by rw [hcon]; rfl
    omega
  have hik : argmax (J.map listMax) < k := by
    have := argmax_lt_length hrmne
    omega
  have hibest : (J.map listMax).getD (argmax (J.map listMax)) ⊥ = listMax (J.map listMax) :=
    getD_argmax hrmne
  have hiR : argmax (J.map listMax) ∉ R := by
    intro hcon
    have hallbot : ∀ x ∈ J.getD (argmax (J.map listMax)) [], x = ⊥ := by
      intro x hx
      obtain ⟨c, hc, hgd⟩ := getD_eq_of_mem hx ⊥
      have := hent (argmax (J.map listMax)) c
      rw [if_pos (Or.inl hcon)] at this
      rw [← hgd]
      exact this
    have hbot : listMax (J.getD (argmax (J.map listMax)) []) = ⊥ := listMax_eq_bot hallbot
    rw [hrm _ hik, hbot] at hibest
    exact hbestne hibest.symm
  have hrowlen : (J.getD (argmax (J.map listMax)) []).length = k :=
    hrows _ (getD_mem_of_lt _ _ (by omega) _)
  have hrowne : J.getD (argmax (J.map listMax)) [] ≠ [] := by
    intro hcon
    rw [hcon] at hrowlen
    simp at hrowlen
    omega
  have hjk : argmax (J.getD (argmax (J.map listMax)) []) < k := by
    have := argmax_lt_length hrowne
    omega
  have hjbest : entryB J (argmax (J.map listMax)) (argmax (J.getD (argmax (J.map listMax)) [])) =
      listMax (J.map listMax) := by
    rw [entryB, getD_argmax hrowne, ← hrm _ hik, hibest]
  have hjC : argmax (J.getD (argmax (J.map listMax)) []) ∉ C := by
    intro hcon
    have := hent (argmax (J.map listMax)) (argmax (J.getD (argmax (J.map listMax)) []))
    rw [if_pos (Or.inr (Or.inl hcon))] at this
    rw [this] at hjbest
    exact hbestne hjbest.symm
  have hstep : greedyStep J =
      ((argmax (J.map listMax),
        argmax (J.getD (argmax (J.map listMax)) []),
        listMax (J.map listMax)),
        elimRC (argmax (J.map listMax)) (argmax (J.getD (argmax (J.map listMax)) [])) J) := rfl
  rw [hstep]
  refine ⟨hik, hiR, hjk, hjC, hjbest, hub, rfl, ?_⟩
  refine ⟨by rw [elimRC_length]; exact hlen, elimRC_rows _ _ _ _ hrows, ?_, ?_, ?_, ?_⟩
  · intro a ha
    rcases Finset.mem_insert.1 ha with rfl | ha
    · exact Finset.mem_range.2 hik
    · exact hRk ha
  · intro a ha
    rcases Finset.mem_insert.1 ha with rfl | ha
    · exact Finset.mem_range.2 hjk
    · exact hCk ha
  · rw [Finset.card_insert_of_not_mem hiR, Finset.card_insert_of_not_mem hjC, hRC]
  · intro r c
    rw [entryB_elimRC]
    by_cases h1 : r = argmax (J.map listMax) ∨ c = argmax (J.getD (argmax (J.map listMax)) [])
    · rw [if_pos h1, if_pos ?_]
      rcases h1 with rfl | rfl
      · exact Or.inl (Finset.mem_insert_self _ _)
      · exact Or.inr (Or.inl (Finset.mem_insert_self _ _))
    · rw [if_neg h1, hent r c]
      push_neg at h1
      by_cases h2 : r ∈ R ∨ c ∈ C ∨ k ≤ r ∨ k ≤ c
      · rw [if_pos h2, if_pos ?_]
        rcases h2 with h | h | h | h
        · exact Or.inl (Finset.mem_insert_of_mem h)
        · exact Or.inr (Or.inl (Finset.mem_insert_of_mem h))
        · exact Or.inr (Or.inr (Or.inl h))
        · exact Or.inr (Or.inr (Or.inr h))
      · rw [if_neg h2, if_neg ?_]
        push_neg at h2
        push_neg
        refine ⟨?_, ?_, h2.2.2.1, h2.2.2.2⟩
        · intro hcon
          rcases Finset.mem_insert.1 hcon with hcon | hcon
          · exact h1.1 hcon
          · exact h2.1 hcon
        · intro hcon
          rcases Finset.mem_insert.1 hcon with hcon | hcon
          · exact h1.2 hcon
          · exact h2.2.1 hcon

theorem greedyTrace_spec {J0 : Mat} {k : ℕ} (hJ0 : MatOK J0 k) :
    ∀ (n : ℕ) (J : MatB) (R C : Finset ℕ), GreedyInv J0 k J R C → R.card + n = k →
      (greedyTrace n J).length = n ∧
      ((greedyTrace n J).map (fun s => s.1.1)).Nodup ∧
      (∀ s ∈ greedyTrace n J, s.1.1 < k ∧ s.1.1 ∉ R) ∧
      ((greedyTrace n J).map (fun s => s.1.2.1)).Nodup ∧
      (∀ s ∈ greedyTrace n J, s.1.2.1 < k ∧ s.1.2.1 ∉ C) ∧
      (∀ s ∈ greedyTrace n J, entryB s.2 s.1.1 s.1.2.1 = s.1.2.2 ∧
        ∀ r c, entryB s.2 r c ≤ s.1.2.2) ∧
      (greedyTrace n J ≠ [] → ((greedyTrace n J).getD 0 default).2 = J) ∧
      (∀ t, t + 1 < n →
        ((greedyTrace n J).getD (t + 1) default).2 =
          elimRC ((greedyTrace n J).getD t default).1.1
            ((greedyTrace n J).getD t default).1.2.1
            ((greedyTrace n J).getD t default).2) := by
  intro n
  induction n with
  | zero =>
    intro J R C _ _
    refine ⟨rfl, by simp [greedyTrace], by simp [greedyTrace], by simp [greedyTrace],
      by simp [greedyTrace], by simp [greedyTrace], by simp [greedyTrace], ?_⟩
    intro t ht
    omega
  | succ n ih =>
    intro J R C hInv hcard
    have hstep := greedyStep_spec hJ0 hInv (by omega)
    obtain ⟨hik, hiR, hjk, hjC, hbest, hub, helim, hInv2⟩ := hstep
    have hcard2 : (insert (greedyStep J).1.1 R).card + n = k := by
      rw [Finset.card_insert_of_not_mem hiR]
      omega
    have hrec := ih (greedyStep J).2 (insert (greedyStep J).1.1 R)
      (insert (greedyStep J).1.2.1 C) hInv2 hcard2
    obtain ⟨hL, hRn, hRm, hCn, hCm, hstepOK, hhead, hchain⟩ := hrec
    have htr : greedyTrace (n + 1) J =
        ((greedyStep J).1, J) :: greedyTrace n (greedyStep J).2 := rfl
    rw [htr]
    refine ⟨by simp [hL], ?_, ?_, ?_, ?_, ?_, ?_, ?_⟩
    · rw [List.map_cons]
      refine List.nodup_cons.2 ⟨?_, hRn⟩
      intro hcon
      simp only [List.mem_map] at hcon
      obtain ⟨s, hs, hseq⟩ := hcon
      exact (hRm s hs).2 (hseq ▸ Finset.mem_insert_self _ _)
    · intro s hs
      rcases List.mem_cons.1 hs with rfl | hs
      · exact ⟨hik, hiR⟩
      · exact ⟨(hRm s hs).1, fun hcon => (hRm s hs).2 (Finset.mem_insert_of_mem hcon)⟩
    · rw [List.map_cons]
      refine List.nodup_cons.2 ⟨?_, hCn⟩
      intro hcon
      simp only [List.mem_map] at hcon
      obtain ⟨s, hs, hseq⟩ := hcon
      exact (hCm s hs).2 (hseq ▸ Finset.mem_insert_self _ _)
    · intro s hs
      rcases List.mem_cons.1 hs with rfl | hs
      · exact ⟨hjk, hjC⟩
      · exact ⟨(hCm s hs).1, fun hcon => (hCm s hs).2 (Finset.mem_insert_of_mem hcon)⟩
    · intro s hs
      rcases List.mem_cons.1 hs with rfl | hs
      · exact ⟨hbest, hub⟩
      · exact hstepOK s hs
    · intro _
      rfl
    · intro t ht
      cases t with
      | zero =>
        simp only [List.getD_cons_succ, List.getD_cons_zero]
        have hne : greedyTrace n (greedyStep J).2 ≠ [] := by
          intro hcon
          have : (greedyTrace n (greedyStep J).2).length = 0 := by rw [hcon]; rfl
          omega
        rw [hhead hne, helim]
      | succ u =>
        simp only [List.getD_cons_succ]
        exact hchain u (by omega)

end GreedyInvariant

section Stability

/-- Embedding of `np.unique`: the sorted list of the distinct labels. -/
def uniqueSorted (labels : List ℕ) : List ℕ := labels.dedup.insertionSort (· ≤ ·)

/-- Embedding of `_translate_cluster_labels_to_dictionary_of_index_sets_per_cluster`
(source lines 197–214): the dictionary sending each cluster id occurring in
`labels` to the set of positions carrying it, pushed through the bootstrap
index `mapping` when one is given.  A key absent from the labeling gives
`none` (python's `KeyError` on lookup).  The source's list of mapped indices
is consumed only by python set operations downstream, so it is modelled
directly as a `Finset` (the set deduplicates repeated original indices). -/
def translateSet (labels : List ℕ) (mapping : Option (List ℕ)) (c : ℕ) : Finset ℕ :=
  match mapping with
  | none => ((List.range labels.length).filter (fun i => labels.getD i 0 = c)).toFinset
  | some m => (((List.range labels.length).filter
      (fun i => labels.getD i 0 = c)).map (fun i => m.getD i 0)).toFinset

/-- Dictionary lookup into the translated dictionary: a key absent from the
labeling is python's `KeyError`, giving `none`. -/
def translateLabels (labels : List ℕ) (mapping : Option (List ℕ)) (c : ℕ) :
    Option (Finset ℕ) :=
  if c ∈ labels then some (translateSet labels mapping c) else none

/-- Jaccard index of two finite index sets,
`len(intersection) / len(union)`. -/
def jaccardIndex (A B : Finset ℕ) : ℚ := ((A ∩ B).card : ℚ) / ((A ∪ B).card : ℚ)

/-- Embedding of `_compute_jaccard_matrix` (source lines 216–229): the matrix
of Jaccard indices between original clusters (rows) and bootstrap clusters
(columns), both axes indexed by the original cluster list; a dictionary key
missing anywhere is python's `KeyError`, modelled by `none`. -/
def compute_jaccard_matrix (clusters : List ℕ) (boot orig : ℕ → Option (Finset ℕ)) :
    Option Mat :=
  if ∀ c ∈ clusters, (boot c).isSome ∧ (orig c).isSome then
    some (clusters.map (fun ci => clusters.map (fun cj =>
      jaccardIndex ((orig ci).getD ∅) ((boot cj).getD ∅))))
  else none

/-- Division of a possibly `-np.inf` score by the bootstrap count: `-inf / b`
stays `-inf`, a finite value divides in `ℚ`. -/
def divB (x : WithBot ℚ) (b : ℕ) : WithBot ℚ := x.map (fun q => q / (b : ℚ))

/-- Score accumulation of one greedy matching round (source line 162): each
pick credits `index_per_cluster[clusters[i]] += best_index`. -/
def applyPicks (clusters : List ℕ) (picks : List (ℕ × ℕ × WithBot ℚ))
    (f : ℕ → WithBot ℚ) : ℕ → WithBot ℚ :=
  picks.foldl (fun g p =>
    Function.update g (clusters.getD p.1 0) (g (clusters.getD p.1 0) + p.2.2)) f

/-- One bootstrap round of `compute_stability_indices` (source lines
143–162): resample, re-cluster, translate, build the Jaccard matrix, run the
greedy matching over its `len(jaccard_matrix)` rows, and credit the scores. -/
def stabilityRound (D : Mat) (cluster_method : Mat → List ℕ) (stream : ℕ → ℕ)
    (off : ℕ) (clusters : List ℕ) (origSets : ℕ → Option (Finset ℕ))
    (f : ℕ → WithBot ℚ) : Option (ℕ → WithBot ℚ) :=
  (compute_jaccard_matrix clusters
      (translateLabels (cluster_method (bootstrap_matrix D stream off).1)
        (some (bootstrap_matrix D stream off).2)) origSets).map (fun J =>
    applyPicks clusters ((greedyTrace J.length (liftMat J)).map (fun s => s.1)) f)

/-- Embedding of `compute_stability_indices` (source lines 128–167).  The
asserts of lines 130–131 reject a non-square matrix (`none`).  The `seed`
argument is faithfully ignored: line 132 executes `np.random.seed = seed`,
an attribute assignment that rebinds the name `np.random.seed` to the
integer and leaves the global generator state untouched, so the bootstrap
draws continue from the ambient `stream`.  The returned dictionary is the
pair of its key list (the original cluster ids) and its value function. -/
def compute_stability_indices (D : Mat) (cluster_method : Mat → List ℕ)
    (bootstraps : ℕ) (seed : ℕ) (stream : ℕ → ℕ) :
    Option (List ℕ × (ℕ → WithBot ℚ)) :=
  if ∀ row ∈ D, row.length = D.length then
    ((List.range bootstraps).foldl
        (fun acc r => acc.bind
          (stabilityRound D cluster_method stream (r * D.length)
            (uniqueSorted (cluster_method D)) (translateLabels (cluster_method D) none)))
        (some (fun _ => (0 : WithBot ℚ)))).map
      (fun f => (uniqueSorted (cluster_method D), fun c => divB (f c) bootstraps))
  else none

end Stability

section JaccardLemmas

theorem mem_uniqueSorted {labels : List ℕ} {c : ℕ} : c ∈ uniqueSorted labels ↔ c ∈ labels := by
  rw [uniqueSorted, List.mem_insertionSort, List.mem_dedup]

theorem uniqueSorted_nodup (labels : List ℕ) : (uniqueSorted labels).Nodup :=
  (List.perm_insertionSort _ _).nodup_iff.2 (List.nodup_dedup labels)

theorem jaccardIndex_nonneg (A B : Finset ℕ) : 0 ≤ jaccardIndex A B :=
  div_nonneg (Nat.cast_nonneg _) (Nat.cast_nonneg _)

theorem translateLabels_isSome {labels : List ℕ} {mapping : Option (List ℕ)} {c : ℕ}
    (hc : c ∈ labels) : (translateLabels labels mapping c).isSome := by
  rw [translateLabels, if_pos hc]
  rfl

theorem translateLabels_eq_none {labels : List ℕ} {mapping : Option (List ℕ)} {c : ℕ}
    (hc : c ∉ labels) : translateLabels labels mapping c = none := by
  rw [translateLabels, if_neg hc]

theorem compute_jaccard_matrix_MatOK {clusters : List ℕ}
    {boot orig : ℕ → Option (Finset ℕ)} {J : Mat}
    (hJ : compute_jaccard_matrix clusters boot orig = some J) :
    MatOK J clusters.length := by
  rw [compute_jaccard_matrix] at hJ
  split_ifs at hJ with hall
  · obtain rfl := Option.some_injective _ hJ
    refine ⟨List.length_map _ _, ?_, ?_⟩
    · intro row hrow
      simp only [List.mem_map] at hrow
      obtain ⟨ci, _, rfl⟩ := hrow
      exact List.length_map _ _
    · intro r c
      by_cases hr : r < clusters.length
      · rw [entryQ, getD_map_of_lt _ _ r (by omega) [] 0]
        by_cases hc : c < clusters.length
        · rw [getD_map_of_lt _ _ c (by omega) 0 0]
          exact jaccardIndex_nonneg _ _
        · have hrow : (clusters.map (fun cj =>
              jaccardIndex ((orig (clusters.getD r 0)).getD ∅) ((boot cj).getD ∅))).getD c 0
                = 0 :=
            List.getD_eq_default _ _ (by rw [List.length_map]; omega)
          rw [hrow]
      · have hrow : (clusters.map (fun ci => clusters.map (fun cj =>
            jaccardIndex ((orig ci).getD ∅) ((boot cj).getD ∅)))).getD r [] = [] :=
          List.getD_eq_default _ _ (by rw [List.length_map]; omega)
        rw [entryQ, hrow]
        simp [List.getD]

theorem perm_range_of_nodup_lt {l : List ℕ} {k : ℕ} (hnd : l.Nodup) (hlen : l.length = k)
    (hlt : ∀ x ∈ l, x < k) : l.Perm (List.range k) := by
  apply List.perm_of_nodup_nodup_toFinset_eq hnd (List.nodup_range k)
  apply Finset.eq_of_subset_of_card_le
  · intro a ha
    rw [List.mem_toFinset] at ha
    rw [List.mem_toFinset, List.mem_range]
    exact hlt a ha
  · rw [List.toFinset_card_of_nodup (List.nodup_range k), List.length_range,
      List.toFinset_card_of_nodup hnd, hlen]

end JaccardLemmas

section ClaimC1

/-- Claim C1: for the Jaccard matrix built from an original labeling (whose
clusters are nonempty and pairwise disjoint by construction) and any
bootstrap cluster dictionary covering the same cluster ids, one round of the
greedy matching runs exactly `k` elimination steps; each step picks a
position whose entry is the globally maximal remaining entry of the matrix
and the next step's matrix has that entry's whole row and column eliminated;
on completion the picked rows are a permutation of all `k` original cluster
indices (each original cluster credited exactly once) and the picked columns
are pairwise distinct (no bootstrap cluster assigned twice). -/
theorem greedy_matching_complete (labels : List ℕ) (bootSets : ℕ → Option (Finset ℕ))
    (hb : ∀ c ∈ uniqueSorted labels, (bootSets c).isSome) :
    ∃ J : Mat,
      compute_jaccard_matrix (uniqueSorted labels) bootSets (translateLabels labels none) =
        some J ∧
      J.length = (uniqueSorted labels).length ∧
      (greedyTrace J.length (liftMat J)).length = (uniqueSorted labels).length ∧
      ((greedyTrace J.length (liftMat J)).map (fun s => s.1.1)).Perm
        (List.range (uniqueSorted labels).length) ∧
      ((greedyTrace J.length (liftMat J)).map (fun s => s.1.2.1)).Nodup ∧
      (∀ s ∈ greedyTrace J.length (liftMat J), s.1.2.1 < (uniqueSorted labels).length) ∧
      (∀ s ∈ greedyTrace J.length (liftMat J),
        entryB s.2 s.1.1 s.1.2.1 = s.1.2.2 ∧ ∀ r c, entryB s.2 r c ≤ s.1.2.2) ∧
      (∀ t, t + 1 < J.length →
        ((greedyTrace J.length (liftMat J)).getD (t + 1) default).2 =
          elimRC ((greedyTrace J.length (liftMat J)).getD t default).1.1
            ((greedyTrace J.length (liftMat J)).getD t default).1.2.1
            ((greedyTrace J.length (liftMat J)).getD t default).2) := by
  have hall : ∀ c ∈ uniqueSorted labels,
      (bootSets c).isSome ∧ ((translateLabels labels none) c).isSome := by
    intro c hc
    exact ⟨hb c hc, translateLabels_isSome (mem_uniqueSorted.1 hc)⟩
  refine ⟨(uniqueSorted labels).map (fun ci => (uniqueSorted labels).map (fun cj =>
      jaccardIndex ((translateLabels labels none ci).getD ∅) ((bootSets cj).getD ∅))), ?_, ?_⟩
  · rw [compute_jaccard_matrix, if_pos hall]
  set k := (uniqueSorted labels).length with hk
  set J : Mat := (uniqueSorted labels).map (fun ci => (uniqueSorted labels).map (fun cj =>
      jaccardIndex ((translateLabels labels none ci).getD ∅) ((bootSets cj).getD ∅))) with hJdef
  have hsome : compute_jaccard_matrix (uniqueSorted labels) bootSets
      (translateLabels labels none) = some J := by
    rw [compute_jaccard_matrix, if_pos hall]
  have hOK : MatOK J k := compute_jaccard_matrix_MatOK hsome
  have hJlen : J.length = k := hOK.1
  have hspec := greedyTrace_spec hOK k (liftMat J) ∅ ∅ (greedyInv_init hOK) (by simp)
  obtain ⟨hL, hRn, hRm, hCn, hCm, hstepOK, _, hchain⟩ := hspec
  rw [hJlen]
  refine ⟨rfl, hL, ?_, hCn, fun s hs => (hCm s hs).1, hstepOK, ?_⟩
  · apply perm_range_of_nodup_lt hRn
    · rw [List.length_map, hL]
    · intro x hx
      simp only [List.mem_map] at hx
      obtain ⟨s, hs, rfl⟩ := hx
      exact (hRm s hs).1
  · intro t ht
    exact hchain t (by omega)

/-- Witness for `greedy_matching_complete` at the concrete labeling `[0, 1]`
with bootstrap sets `{0}` and `{1}`. -/
theorem greedy_matching_complete_witness :
    (∀ c ∈ uniqueSorted [0, 1],
      ((fun c => if c = 0 then some ({0} : Finset ℕ)
        else if c = 1 then some ({1} : Finset ℕ) else none) c).isSome) ∧
    (∃ J : Mat,
      compute_jaccard_matrix (uniqueSorted [0, 1])
        (fun c => if c = 0 then some ({0} : Finset ℕ)
          else if c = 1 then some ({1} : Finset ℕ) else none)
        (translateLabels [0, 1] none) = some J ∧
      J.length = (uniqueSorted [0, 1]).length ∧
      (greedyTrace J.length (liftMat J)).length = (uniqueSorted [0, 1]).length ∧
      ((greedyTrace J.length (liftMat J)).map (fun s => s.1.1)).Perm
        (List.range (uniqueSorted [0, 1]).length) ∧
      ((greedyTrace J.length (liftMat J)).map (fun s => s.1.2.1)).Nodup ∧
      (∀ s ∈ greedyTrace J.length (liftMat J), s.1.2.1 < (uniqueSorted [0, 1]).length) ∧
      (∀ s ∈ greedyTrace J.length (liftMat J),
        entryB s.2 s.1.1 s.1.2.1 = s.1.2.2 ∧ ∀ r c, entryB s.2 r c ≤ s.1.2.2) ∧
      (∀ t, t + 1 < J.length →
        ((greedyTrace J.length (liftMat J)).getD (t + 1) default).2 =
          elimRC ((greedyTrace J.length (liftMat J)).getD t default).1.1
            ((greedyTrace J.length (liftMat J)).getD t default).1.2.1
            ((greedyTrace J.length (liftMat J)).getD t default).2)) := by
  refine ⟨by decide, ?_⟩
  exact greedy_matching_complete [0, 1] _ (by decide)

end ClaimC1

section ClaimC4

theorem foldl_bind_none_start {α : Type} (l : List ℕ) (g : ℕ → α → Option α) :
    l.foldl (fun acc r => acc.bind (g r)) none = none := by
  induction l with
  | nil => rfl
  | cons x xs ih => simpa using ih

theorem foldl_bind_none {α : Type} (l : List ℕ) (g : ℕ → α → Option α)
    (init : Option α) (hr : ∃ r ∈ l, ∀ f, g r f = none) :
    l.foldl (fun acc r => acc.bind (g r)) init = none := by
  induction l generalizing init with
  | nil => simp at hr
  | cons x xs ih =>
    obtain ⟨r, hrmem, hrnone⟩ := hr
    rcases List.mem_cons.1 hrmem with rfl | hmem
    · have hstep : (init.bind (g r)) = none := by
        cases init with
        | none => rfl
        | some f => exact hrnone f
      rw [List.foldl_cons, hstep, foldl_bind_none_start]
    · rw [List.foldl_cons]
      exact ih _ ⟨r, hmem, hrnone⟩

theorem compute_jaccard_matrix_none_of_missing {clusters : List ℕ}
    {boot orig : ℕ → Option (Finset ℕ)} {c : ℕ} (hc : c ∈ clusters)
    (hnone : boot c = none) :
    compute_jaccard_matrix clusters boot orig = none := by
  rw [compute_jaccard_matrix, if_neg]
  intro hall
  have hs := (hall c hc).1
  rw [hnone] at hs
  simp at hs

theorem stabilityRound_none_of_missing (D : Mat) (cm : Mat → List ℕ) (stream : ℕ → ℕ)
    (off : ℕ) (clusters : List ℕ) (origSets : ℕ → Option (Finset ℕ))
    (f : ℕ → WithBot ℚ)
    (hc : ∃ c ∈ clusters, c ∉ cm (bootstrap_matrix D stream off).1) :
    stabilityRound D cm stream off clusters origSets f = none := by
  obtain ⟨c, hce, hcn⟩ := hc
  rw [stabilityRound]
  rw [compute_jaccard_matrix_none_of_missing hce (translateLabels_eq_none hcn)]
  rfl

/-- Claim C4 (amended): when in some bootstrap round a cluster id of the
original labeling has zero members in the bootstrap labeling, the bootstrap
dictionary lacks that key, and building the Jaccard matrix raises `KeyError`
(the round fails, aborting `compute_stability_indices`), rather than the
matching proceeding with a zero row. -/
theorem stability_missing_cluster_key_error (D : Mat) (cm : Mat → List ℕ)
    (bootstraps seed : ℕ) (stream : ℕ → ℕ)
    (hmiss : ∃ r ∈ List.range bootstraps, ∃ c ∈ uniqueSorted (cm D),
      c ∉ cm (bootstrap_matrix D stream (r * D.length)).1) :
    compute_stability_indices D cm bootstraps seed stream = none := by
  rw [compute_stability_indices]
  split_ifs with hsq
  · obtain ⟨r, hrmem, c, hce, hcn⟩ := hmiss
    rw [foldl_bind_none _ _ _ ⟨r, hrmem, fun f =>
      stabilityRound_none_of_missing _ _ _ _ _ _ f ⟨c, hce, hcn⟩⟩]
    rfl
  · rfl

/-- Concrete cluster method used in the counterexamples: two singleton
clusters when the matrix separates the first two points, one cluster
otherwise. -/
def pairClusterMethod : Mat → List ℕ :=
  fun M => if (0 : ℚ) < entryQ M 0 1 then [0, 1] else [0, 0]

/-- Counterexample to claim C4 as stated: on the 2×2 distance matrix
`[[0,1],[1,0]]` with an ambient draw stream resampling `[0,0]`, the bootstrap
clustering has no member for original cluster `1`; instead of crediting that
cluster with `0`, `compute_stability_indices` fails (`KeyError` on the
bootstrap dictionary). -/
theorem stability_missing_cluster_counterexample :
    compute_stability_indices [[0, 1], [1, 0]] pairClusterMethod 1 42 (fun _ => 0) = none := by
  have h : (compute_stability_indices [[0, 1], [1, 0]] pairClusterMethod 1 42
      (fun _ => 0)).isSome = false := by
    with_unfolding_all decide
  cases hcase : compute_stability_indices [[0, 1], [1, 0]] pairClusterMethod 1 42
      (fun _ => 0) with
  | none => rfl
  | some v =>
    rw [hcase] at h
    simp at h

/-- Witness for `stability_missing_cluster_key_error` at the counterexample
input. -/
theorem stability_missing_cluster_key_error_witness :
    (∃ r ∈ List.range 1, ∃ c ∈ uniqueSorted (pairClusterMethod [[0, 1], [1, 0]]),
      c ∉ pairClusterMethod
        (bootstrap_matrix [[0, 1], [1, 0]] (fun _ => 0) (r * ([[(0:ℚ), 1], [1, 0]] : Mat).length)).1) ∧
    compute_stability_indices [[0, 1], [1, 0]] pairClusterMethod 1 7 (fun _ => 0) = none := by
  constructor
  · with_unfolding_all decide
  · exact stability_missing_cluster_key_error [[0, 1], [1, 0]] pairClusterMethod 1 7
      (fun _ => 0) (by with_unfolding_all decide)

end ClaimC4

section ClaimC7

/-- Concrete cluster method for the seed counterexample: clusters by whether
the first-column entry is below `1/2`. -/
def thresholdClusterMethod : Mat → List ℕ :=
  fun M => (List.range M.length).map (fun i => if (M.getD i []).getD 0 0 < 1/2 then 0 else 1)

/-- Claim C7 is false on the code (a code bug): two calls of
`compute_stability_indices` with identical arguments — the same distance
matrix, cluster method, bootstrap count and the same `seed = 42` — return
different stability tables when the ambient numpy generator state differs,
because line 132 `np.random.seed = seed` rebinds the attribute instead of
calling `np.random.seed(seed)` and never seeds the generator. -/
theorem stability_not_seed_deterministic :
    (compute_stability_indices [[0, 0, 1], [0, 0, 1], [1, 1, 0]] thresholdClusterMethod
        1 42 (fun i => i)).map (fun p => (p.2 0, p.2 1)) ≠
      (compute_stability_indices [[0, 0, 1], [0, 0, 1], [1, 1, 0]] thresholdClusterMethod
        1 42 (fun i => if i = 0 then 0 else 2)).map (fun p => (p.2 0, p.2 1)) := by
  with_unfolding_all decide

end ClaimC7

section ClaimC5

/-- Shape of the matrix reached after `t` steps of the greedy matching on an
identity Jaccard matrix: rows and columns below `t` eliminated, diagonal `1`,
off-diagonal `0`. -/
def IdElimChar (k t : ℕ) (J : MatB) : Prop :=
  J.length = k ∧ (∀ row ∈ J, row.length = k) ∧
    ∀ r c, entryB J r c =
      if k ≤ r ∨ k ≤ c ∨ r < t ∨ c < t then ⊥
      else if r = c then WithBot.some 1 else WithBot.some 0

theorem idElim_entry_le_one {k t : ℕ} {J : MatB} (h : IdElimChar k t J) (r c : ℕ) :
    entryB J r c ≤ WithBot.some 1 := by
  rw [h.2.2 r c]
  split_ifs with h1 h2
  · exact bot_le
  · exact le_refl _
  · exact WithBot.coe_le_coe.2 (by norm_num)

theorem idElim_rowmax {k t : ℕ} {J : MatB} (h : IdElimChar k t J) (r : ℕ) (hr : r < k) :
    listMax (J.getD r []) = if r < t then ⊥ else WithBot.some 1 := by
  obtain ⟨hlen, hrows, hent⟩ := h
  have hrl : (J.getD r []).length = k := hrows _ (getD_mem_of_lt _ _ (by omega) _)
  have hget : ∀ m, (J.getD r []).getD m ⊥ = entryB J r m := fun m => rfl
  split_ifs with hrt
  · apply listMax_eq_bot
    intro x hx
    obtain ⟨m, _, hm⟩ := getD_eq_of_mem hx ⊥
    rw [← hm, hget, hent r m, if_pos (by omega)]
  · apply listMax_eq_of (n := r) (by omega)
    · rw [hget, hent r r, if_neg (by omega), if_pos rfl]
    · intro m
      rw [hget]
      exact idElim_entry_le_one ⟨hlen, hrows, hent⟩ r m

theorem idElim_step {k t : ℕ} {J : MatB} (h : IdElimChar k t J) (ht : t < k) :
    greedyStep J = ((t, t, WithBot.some 1), elimRC t t J) ∧
      IdElimChar k (t + 1) (elimRC t t J) := by
  obtain ⟨hlen, hrows, hent⟩ := h
  have hrmlen : (J.map listMax).length = k := by rw [List.length_map, hlen]
  have hrm : ∀ r, r < k → (J.map listMax).getD r ⊥ = listMax (J.getD r []) := by
    intro r hr
    exact getD_map_of_lt _ _ r (by omega) ⊥ []
  have hrmval : ∀ r, (J.map listMax).getD r ⊥ =
      if r < t then ⊥ else if r < k then WithBot.some 1 else ⊥ := by
    intro r
    by_cases hr : r < k
    · rw [hrm r hr, idElim_rowmax ⟨hlen, hrows, hent⟩ r hr]
      by_cases h1 : r < t
      · rw [if_pos h1, if_pos h1]
      · rw [if_neg h1, if_neg h1, if_pos hr]
    · rw [List.getD_eq_default _ _ (by omega), if_neg (by omega), if_neg (by omega)]
  have hrmub : ∀ m, (J.map listMax).getD m ⊥ ≤ WithBot.some 1 := by
    intro m
    rw [hrmval m]
    split_ifs with h1 h2
    · exact bot_le
    · exact le_refl _
    · exact bot_le
  have hi : argmax (J.map listMax) = t := by
    apply argmax_eq_of (v := WithBot.some 1) (by omega)
    · rw [hrmval t, if_neg (by omega), if_pos (by omega)]
    · exact hrmub
    · intro m hm
      rw [hrmval m, if_pos hm]
      exact WithBot.bot_lt_coe _
  have hbest : listMax (J.map listMax) = WithBot.some 1 := by
    apply listMax_eq_of (n := t) (by omega)
    · rw [hrmval t, if_neg (by omega), if_pos (by omega)]
    · exact hrmub
  have hget : ∀ m, (J.getD t []).getD m ⊥ = entryB J t m := fun m => rfl
  have hj : argmax (J.getD t []) = t := by
    have hrl : (J.getD t []).length = k := hrows _ (getD_mem_of_lt _ _ (by omega) _)
    apply argmax_eq_of (v := WithBot.some 1) (by omega)
    · rw [hget, hent t t, if_neg (by omega), if_pos rfl]
    · intro m
      rw [hget]
      exact idElim_entry_le_one ⟨hlen, hrows, hent⟩ t m
    · intro m hm
      rw [hget, hent t m, if_pos (by omega)]
      exact WithBot.bot_lt_coe _
  have hstep : greedyStep J = ((t, t, WithBot.some 1), elimRC t t J) := by
    show ((argmax (J.map listMax), argmax (J.getD (argmax (J.map listMax)) []),
      listMax (J.map listMax)), elimRC (argmax (J.map listMax))
        (argmax (J.getD (argmax (J.map listMax)) [])) J) = _
    rw [hi, hj, hbest]
  refine ⟨hstep, by rw [elimRC_length]; exact hlen, elimRC_rows _ _ _ _ hrows, ?_⟩
  intro r c
  rw [entryB_elimRC, hent r c]
  by_cases h1 : r = t ∨ c = t
  · rw [if_pos h1, if_pos (show k ≤ r ∨ k ≤ c ∨ r < t + 1 ∨ c < t + 1 by omega)]
  · rw [if_neg h1]
    by_cases h2 : k ≤ r ∨ k ≤ c ∨ r < t ∨ c < t
    · rw [if_pos h2, if_pos (show k ≤ r ∨ k ≤ c ∨ r < t + 1 ∨ c < t + 1 by omega)]
    · rw [if_neg h2,
        if_neg (show ¬(k ≤ r ∨ k ≤ c ∨ r < t + 1 ∨ c < t + 1) by omega)]

theorem greedyTrace_identity (k : ℕ) :
    ∀ (n t : ℕ) (J : MatB), t + n = k → IdElimChar k t J →
      (greedyTrace n J).map (fun s => s.1) =
        (List.range' t n).map (fun u => (u, u, WithBot.some (1 : ℚ))) := by
  intro n
  induction n with
  | zero => intro t J _ _; rfl
  | succ n ih =>
    intro t J htn hchar
    obtain ⟨hstep, hchar2⟩ := idElim_step hchar (by omega)
    have htr : greedyTrace (n + 1) J = ((greedyStep J).1, J) :: greedyTrace n (greedyStep J).2 :=
      rfl
    rw [htr, List.map_cons, hstep, List.range'_succ, List.map_cons]
    congr 1
    exact ih (t + 1) (elimRC t t J) (by omega) hchar2

theorem translateSet_nonempty {labels : List ℕ} {c : ℕ} (hc : c ∈ labels) :
    (translateSet labels none c).Nonempty := by
  obtain ⟨i, hi, hie⟩ := List.mem_iff_getElem.1 hc
  refine ⟨i, ?_⟩
  simp only [translateSet, List.mem_toFinset, List.mem_filter, List.mem_range,
    decide_eq_true_eq]
  refine ⟨hi, ?_⟩
  rw [List.getD_eq_getElem _ _ hi]
  exact hie

theorem translateSet_disjoint {labels : List ℕ} {c c' : ℕ} (hne : c ≠ c') :
    translateSet labels none c ∩ translateSet labels none c' = ∅ := by
  rw [Finset.eq_empty_iff_forall_not_mem]
  intro i hi
  rw [Finset.mem_inter] at hi
  obtain ⟨h1, h2⟩ := hi
  simp only [translateSet, List.mem_toFinset, List.mem_filter, List.mem_range] at h1 h2
  have e1 := h1.2
  have e2 := h2.2
  simp only [decide_eq_true_eq] at e1 e2
  exact hne (e1 ▸ e2 ▸ rfl)

theorem jaccardIndex_self {A : Finset ℕ} (h : A.Nonempty) : jaccardIndex A A = 1 := by
  rw [jaccardIndex, Finset.inter_self, Finset.union_self]
  exact div_self (by
    have := Finset.card_pos.2 h
    positivity)

theorem jaccardIndex_of_disjoint {A B : Finset ℕ} (h : A ∩ B = ∅) :
    jaccardIndex A B = 0 := by
  rw [jaccardIndex, h]
  simp

theorem compute_jaccard_matrix_congr {clusters : List ℕ}
    {boot boot' orig : ℕ → Option (Finset ℕ)} (h : ∀ c ∈ clusters, boot c = boot' c) :
    compute_jaccard_matrix clusters boot orig =
      compute_jaccard_matrix clusters boot' orig := by
  rw [compute_jaccard_matrix, compute_jaccard_matrix]
  by_cases hall : ∀ c ∈ clusters, (boot c).isSome ∧ (orig c).isSome
  · rw [if_pos hall, if_pos (fun c hc => by rw [← h c hc]; exact hall c hc)]
    congr 1
    apply List.map_congr_left
    intro ci _
    apply List.map_congr_left
    intro cj hcj
    rw [h cj hcj]
  · rw [if_neg hall, if_neg (fun hcon => hall (fun c hc => by
      rw [h c hc]; exact hcon c hc))]

theorem nodup_getD_ne {l : List ℕ} (hnd : l.Nodup) {r c : ℕ} (hr : r < l.length)
    (hc : c < l.length) (hne : r ≠ c) : l.getD r 0 ≠ l.getD c 0 := by
  rw [List.getD_eq_getElem _ _ hr, List.getD_eq_getElem _ _ hc]
  intro hcon
  exact hne ((hnd.getElem_inj_iff).1 hcon)

theorem entryB_liftMat_oob (J0 : Mat) (r c : ℕ)
    (h : J0.length ≤ r ∨ (J0.getD r []).length ≤ c) :
    entryB (liftMat J0) r c = ⊥ := by
  by_cases hr : r < J0.length
  · rcases h with h | h
    · omega
    · rw [entryB, liftMat_getD J0 r hr, List.getD_eq_default _ _ (by
        rw [List.length_map]; omega)]
  · have hoob : (liftMat J0).getD r [] = [] := by
      refine List.getD_eq_default _ _ ?_
      rw [liftMat_length]
      omega
    rw [entryB, hoob]
    simp [List.getD]

theorem idChar_of_sets (clusters : List ℕ) (S : ℕ → Finset ℕ)
    (hnd : clusters.Nodup)
    (hne : ∀ c ∈ clusters, (S c).Nonempty)
    (hdisj : ∀ c ∈ clusters, ∀ c' ∈ clusters, c ≠ c' → S c ∩ S c' = ∅) :
    IdElimChar clusters.length 0
      (liftMat (clusters.map (fun ci => clusters.map (fun cj =>
        jaccardIndex (S ci) (S cj))))) := by
  refine ⟨by rw [liftMat_length, List.length_map], ?_, ?_⟩
  · intro row hrow
    rw [liftMat] at hrow
    obtain ⟨row0, hrow0, rfl⟩ := List.mem_map.1 hrow
    obtain ⟨ci, _, rfl⟩ := List.mem_map.1 hrow0
    rw [List.length_map, List.length_map]
  · intro r c
    have hJlen : (clusters.map (fun ci => clusters.map (fun cj =>
        jaccardIndex (S ci) (S cj)))).length = clusters.length := List.length_map _ _
    by_cases hr : r < clusters.length
    · have hrowJ : (clusters.map (fun ci => clusters.map (fun cj =>
          jaccardIndex (S ci) (S cj)))).getD r [] =
          clusters.map (fun cj => jaccardIndex (S (clusters.getD r 0)) (S cj)) :=
        getD_map_of_lt _ _ r (by omega) [] 0
      have hrowlen : ((clusters.map (fun ci => clusters.map (fun cj =>
          jaccardIndex (S ci) (S cj)))).getD r []).length = clusters.length := by
        rw [hrowJ, List.length_map]
      by_cases hc : c < clusters.length
      · rw [entryB_liftMat _ r c (by omega) (by omega), if_neg (by omega)]
        have hval : entryQ (clusters.map (fun ci => clusters.map (fun cj =>
            jaccardIndex (S ci) (S cj)))) r c =
            jaccardIndex (S (clusters.getD r 0)) (S (clusters.getD c 0)) := by
          rw [entryQ, hrowJ, getD_map_of_lt _ _ c (by omega) 0 0]
        have hmemr : clusters.getD r 0 ∈ clusters := getD_mem_of_lt _ _ (by omega) _
        have hmemc : clusters.getD c 0 ∈ clusters := getD_mem_of_lt _ _ (by omega) _
        by_cases hrc : r = c
        · subst hrc
          rw [if_pos rfl, hval, jaccardIndex_self (hne _ hmemr)]
        · rw [if_neg hrc, hval, jaccardIndex_of_disjoint (hdisj _ hmemr _ hmemc
            (nodup_getD_ne hnd (by omega) (by omega) hrc))]
      · rw [entryB_liftMat_oob _ r c (Or.inr (by omega)), if_pos (by omega)]
    · rw [entryB_liftMat_oob _ r c (Or.inl (by
        rw [List.length_map]
        omega)), if_pos (by omega)]

theorem jaccard_identity_char (labels : List ℕ) :
    compute_jaccard_matrix (uniqueSorted labels) (translateLabels labels none)
        (translateLabels labels none) =
      some ((uniqueSorted labels).map (fun ci => (uniqueSorted labels).map (fun cj =>
        jaccardIndex ((translateLabels labels none ci).getD ∅)
          ((translateLabels labels none cj).getD ∅)))) ∧
    IdElimChar (uniqueSorted labels).length 0
      (liftMat ((uniqueSorted labels).map (fun ci => (uniqueSorted labels).map (fun cj =>
        jaccardIndex ((translateLabels labels none ci).getD ∅)
          ((translateLabels labels none cj).getD ∅))))) := by
  have hall : ∀ c ∈ uniqueSorted labels,
      ((translateLabels labels none) c).isSome ∧ ((translateLabels labels none) c).isSome :=
    fun c hc => ⟨translateLabels_isSome (mem_uniqueSorted.1 hc),
      translateLabels_isSome (mem_uniqueSorted.1 hc)⟩
  refine ⟨by rw [compute_jaccard_matrix, if_pos hall], ?_⟩
  apply idChar_of_sets (uniqueSorted labels)
    (fun c => (translateLabels labels none c).getD ∅) (uniqueSorted_nodup labels)
  · intro c hc
    have hmem : c ∈ labels := mem_uniqueSorted.1 hc
    rw [translateLabels, if_pos hmem, Option.getD_some]
    exact translateSet_nonempty hmem
  · intro c hc c' hc' hne
    have hmem : c ∈ labels := mem_uniqueSorted.1 hc
    have hmem' : c' ∈ labels := mem_uniqueSorted.1 hc'
    rw [translateLabels, if_pos hmem, Option.getD_some,
      translateLabels, if_pos hmem', Option.getD_some]
    exact translateSet_disjoint hne

theorem some_add_some (a b : ℚ) :
    WithBot.some a + WithBot.some b = WithBot.some (a + b) :=
  (WithBot.coe_add a b).symm

theorem applyPicks_identity (clusters : List ℕ) (hnd : clusters.Nodup) :
    ∀ (n a : ℕ), a + n = clusters.length → ∀ (f : ℕ → WithBot ℚ) (c : ℕ),
      applyPicks clusters ((List.range' a n).map (fun u => (u, u, WithBot.some (1 : ℚ)))) f c =
        if c ∈ clusters.drop a then f c + WithBot.some 1 else f c := by
  intro n
  induction n with
  | zero =>
    intro a ha f c
    rw [show a = clusters.length by omega, List.drop_length]
    simp [applyPicks]
  | succ n ih =>
    intro a ha f c
    have hal : a < clusters.length := by omega
    have hdrop : clusters.drop a = clusters.getD a 0 :: clusters.drop (a + 1) := by
      rw [List.getD_eq_getElem _ _ hal]
      exact List.drop_eq_getElem_cons hal
    have hnotin : clusters.getD a 0 ∉ clusters.drop (a + 1) := by
      have hsub : (clusters.drop a).Nodup := (List.drop_sublist a clusters).nodup hnd
      rw [hdrop] at hsub
      exact (List.nodup_cons.1 hsub).1
    rw [List.range'_succ, List.map_cons]
    rw [show applyPicks clusters
        ((a, a, WithBot.some (1 : ℚ)) ::
          (List.range' (a + 1) n).map (fun u => (u, u, WithBot.some (1 : ℚ)))) f =
        applyPicks clusters ((List.range' (a + 1) n).map (fun u => (u, u, WithBot.some (1 : ℚ))))
          (Function.update f (clusters.getD a 0)
            (f (clusters.getD a 0) + WithBot.some 1)) from rfl]
    rw [ih (a + 1) (by omega) _ c, hdrop]
    by_cases hc : c = clusters.getD a 0
    · subst hc
      rw [if_neg hnotin, if_pos (List.mem_cons_self _ _), Function.update_same]
    · rw [Function.update_noteq hc]
      by_cases hin : c ∈ clusters.drop (a + 1)
      · rw [if_pos hin, if_pos (List.mem_cons_of_mem _ hin)]
      · rw [if_neg hin, if_neg (by
          intro hcon
          rcases List.mem_cons.1 hcon with hcon | hcon
          · exact hc hcon
          · exact hin hcon)]

theorem stabilityRound_identity (D : Mat) (cm : Mat → List ℕ) (stream : ℕ → ℕ) (off : ℕ)
    (labels : List ℕ)
    (hid : ∀ c ∈ uniqueSorted labels,
      translateLabels (cm (bootstrap_matrix D stream off).1)
        (some (bootstrap_matrix D stream off).2) c = translateLabels labels none c)
    (f : ℕ → WithBot ℚ) :
    stabilityRound D cm stream off (uniqueSorted labels) (translateLabels labels none) f =
      some (fun c => if c ∈ uniqueSorted labels then f c + WithBot.some 1 else f c) := by
  rw [stabilityRound, compute_jaccard_matrix_congr hid, (jaccard_identity_char labels).1]
  rw [Option.map_some']
  refine congrArg some (funext (fun c => ?_))
  rw [show ((uniqueSorted labels).map (fun ci => (uniqueSorted labels).map (fun cj =>
      jaccardIndex ((translateLabels labels none ci).getD ∅)
        ((translateLabels labels none cj).getD ∅)))).length = (uniqueSorted labels).length from
    List.length_map _ _]
  rw [greedyTrace_identity (uniqueSorted labels).length (uniqueSorted labels).length 0 _
    (by omega) (jaccard_identity_char labels).2]
  rw [applyPicks_identity (uniqueSorted labels) (uniqueSorted_nodup labels)
    (uniqueSorted labels).length 0 (by omega) f c, List.drop_zero]

theorem stability_fold_identity (D : Mat) (cm : Mat → List ℕ) (stream : ℕ → ℕ)
    (labels : List ℕ) :
    ∀ (l : List ℕ) (f0 : ℕ → WithBot ℚ),
      (∀ r ∈ l, ∀ c ∈ uniqueSorted labels,
        translateLabels (cm (bootstrap_matrix D stream (r * D.length)).1)
          (some (bootstrap_matrix D stream (r * D.length)).2) c =
          translateLabels labels none c) →
      ∃ g, l.foldl (fun acc r => acc.bind
          (stabilityRound D cm stream (r * D.length) (uniqueSorted labels)
            (translateLabels labels none))) (some f0) = some g ∧
        ∀ c, g c = if c ∈ uniqueSorted labels
          then f0 c + WithBot.some ((l.length : ℚ)) else f0 c := by
  intro l
  induction l with
  | nil =>
    intro f0 _
    refine ⟨f0, rfl, fun c => ?_⟩
    split_ifs
    · rw [List.length_nil, Nat.cast_zero]
      rw [show WithBot.some (0 : ℚ) = (0 : WithBot ℚ) from rfl, add_zero]
    · rfl
  | cons r rs ih =>
    intro f0 hall
    rw [List.foldl_cons, Option.some_bind,
      stabilityRound_identity D cm stream (r * D.length) labels
        (hall r (List.mem_cons_self _ _)) f0]
    obtain ⟨g, hg, hgc⟩ := ih
      (fun c => if c ∈ uniqueSorted labels then f0 c + WithBot.some 1 else f0 c)
      (fun r' hr' => hall r' (List.mem_cons_of_mem _ hr'))
    refine ⟨g, hg, fun c => ?_⟩
    rw [hgc c]
    by_cases hb : c ∈ uniqueSorted labels
    · rw [if_pos hb, if_pos hb, if_pos hb, add_assoc, some_add_some]
      congr 2
      rw [List.length_cons]
      push_cast
      ring
    · rw [if_neg hb, if_neg hb, if_neg hb]

/-- Claim C5: when in every bootstrap round the translated bootstrap cluster
index sets are identical to the original cluster index sets (no resampling
noise), `compute_stability_indices` succeeds and returns a stability score of
exactly `1` for every original cluster. -/
theorem stability_identity_scores (D : Mat) (cm : Mat → List ℕ)
    (bootstraps seed : ℕ) (stream : ℕ → ℕ)
    (hsq : ∀ row ∈ D, row.length = D.length) (hB : 0 < bootstraps)
    (hid : ∀ r ∈ List.range bootstraps, ∀ c ∈ uniqueSorted (cm D),
      translateLabels (cm (bootstrap_matrix D stream (r * D.length)).1)
        (some (bootstrap_matrix D stream (r * D.length)).2) c =
        translateLabels (cm D) none c) :
    ∃ p, compute_stability_indices D cm bootstraps seed stream = some p ∧
      p.1 = uniqueSorted (cm D) ∧ ∀ c ∈ p.1, p.2 c = WithBot.some 1 := by
  rw [compute_stability_indices, if_pos hsq]
  obtain ⟨g, hg, hgc⟩ := stability_fold_identity D cm stream (cm D)
    (List.range bootstraps) (fun _ => 0) hid
  rw [hg, Option.map_some']
  refine ⟨(uniqueSorted (cm D), fun c => divB (g c) bootstraps), rfl, rfl, ?_⟩
  intro c hc
  show divB (g c) bootstraps = WithBot.some 1
  rw [hgc c, if_pos hc, List.length_range, zero_add]
  show WithBot.some ((bootstraps : ℚ) / (bootstraps : ℚ)) = WithBot.some 1
  rw [div_self (by
    have : (0 : ℚ) < (bootstraps : ℚ) := by exact_mod_cast hB
    exact ne_of_gt this)]

/-- Witness for `stability_identity_scores`: a 2×2 distance matrix, the
constant one-cluster method, one bootstrap round drawn by the identity
stream. -/
theorem stability_identity_scores_witness :
    (∀ row ∈ ([[0, 1], [1, 0]] : Mat), row.length = ([[(0:ℚ), 1], [1, 0]] : Mat).length) ∧
    0 < 1 ∧
    (∀ r ∈ List.range 1,
      ∀ c ∈ uniqueSorted ((fun M : Mat => List.replicate M.length 0) [[0, 1], [1, 0]]),
      translateLabels ((fun M : Mat => List.replicate M.length 0)
          (bootstrap_matrix [[0, 1], [1, 0]] (fun i => i) (r * ([[(0:ℚ), 1], [1, 0]] : Mat).length)).1)
        (some (bootstrap_matrix [[0, 1], [1, 0]] (fun i => i)
          (r * ([[(0:ℚ), 1], [1, 0]] : Mat).length)).2) c =
        translateLabels ((fun M : Mat => List.replicate M.length 0) [[0, 1], [1, 0]]) none c) ∧
    (∃ p, compute_stability_indices [[0, 1], [1, 0]]
        (fun M : Mat => List.replicate M.length 0) 1 42 (fun i => i) = some p ∧
      p.1 = uniqueSorted ((fun M : Mat => List.replicate M.length 0) [[0, 1], [1, 0]]) ∧
      ∀ c ∈ p.1, p.2 c = WithBot.some 1) := by
  refine ⟨by decide, by decide, by with_unfolding_all decide, ?_⟩
  exact stability_identity_scores [[0, 1], [1, 0]]
    (fun M : Mat => List.replicate M.length 0) 1 42 (fun i => i)
    (by decide) (by decide) (by with_unfolding_all decide)

end ClaimC5

section Purity

/-- Count of the entries of `l` equal to `v`, the model of `sum(arr == v)`. -/
def countVal (l : List ℚ) (v : ℚ) : ℕ := l.countP (fun x => decide (x = v))

/-- Values of the target `y` inside cluster `c`: the mask
`y[labels == cluster]` (source line 114). -/
def yCluster (y : List ℚ) (labels : List ℕ) (c : ℕ) : List ℚ :=
  ((List.range labels.length).filter (fun i => labels.getD i 0 = c)).map
    (fun i => y.getD i 0)

/-- Count of zeros of the target, `n0` of source line 101. -/
def countZeros (y : List ℚ) : ℕ := countVal y 0

/-- Count of ones of the target, `n1` of source line 102. -/
def countOnes (y : List ℚ) : ℕ := countVal y 1

/-- The source's `up_scaling_factor` (lines 104–111):
majority count over minority count. -/
def up_scaling_factor (y : List ℚ) : ℚ :=
  if countZeros y ≤ countOnes y then (countOnes y : ℚ) / (countZeros y : ℚ)
  else (countZeros y : ℚ) / (countOnes y : ℚ)

/-- The source's `small_label` (lines 104–110). -/
def small_label (y : List ℚ) : ℚ := if countZeros y ≤ countOnes y then 0 else 1

/-- The source's `large_label` (lines 104–110). -/
def large_label (y : List ℚ) : ℚ := if countZeros y ≤ countOnes y then 1 else 0

/-- `x_small` of source line 116: scaled minority count within the cluster. -/
def x_small (y : List ℚ) (labels : List ℕ) (c : ℕ) : ℚ :=
  (countVal (yCluster y labels c) (small_label y) : ℚ) * up_scaling_factor y

/-- `x_large` of source line 117. -/
def x_large (y : List ℚ) (labels : List ℕ) (c : ℕ) : ℚ :=
  (countVal (yCluster y labels c) (large_label y) : ℚ)

/-- `x_tot` of source line 118. -/
def x_tot (y : List ℚ) (labels : List ℕ) (c : ℕ) : ℚ :=
  x_small y labels c + x_large y labels c

/-- `normalized_balanced_purity` of source lines 119–120. -/
def normalized_balanced_purity (y : List ℚ) (labels : List ℕ) (c : ℕ) : ℚ :=
  (x_small y labels c / x_tot y labels c) * (x_large y labels c / x_tot y labels c) /
    (0.25 : ℚ)

/-- The per-cluster list `balanced_purities` of source lines 112–122. -/
def balanced_purities (y : List ℚ) (labels : List ℕ) : List ℚ :=
  (uniqueSorted labels).map (normalized_balanced_purity y labels)

/-- Embedding of `compute_balanced_average_purity` (source lines 100–125):
`np.mean` of the per-cluster normalized balanced purities. -/
def compute_balanced_average_purity (y : List ℚ) (labels : List ℕ) : ℚ :=
  (balanced_purities y labels).sum / ((balanced_purities y labels).length : ℚ)

/-- `np.var`: mean squared deviation from the mean (`ddof = 0`). -/
def npVar (l : List ℚ) : ℚ :=
  (l.map (fun x => (x - l.sum / (l.length : ℚ)) ^ 2)).sum / (l.length : ℚ)

/-- Embedding of `compute_total_within_cluster_variation` (source lines
92–98): sum over clusters of cluster variance times cluster size. -/
def compute_total_within_cluster_variation (y : List ℚ) (labels : List ℕ) : ℚ :=
  ((uniqueSorted labels).map (fun c =>
    npVar (yCluster y labels c) * ((yCluster y labels c).length : ℚ))).sum

theorem purity_core_bounds (a b : ℚ) (ha : 0 ≤ a) (hb : 0 ≤ b) :
    0 ≤ (a / (a + b)) * (b / (a + b)) / (0.25 : ℚ) ∧
      (a / (a + b)) * (b / (a + b)) / (0.25 : ℚ) ≤ 1 := by
  by_cases ht : a + b = 0
  · have haz : a = 0 := by linarith
    rw [haz, zero_div, zero_mul, zero_div]
    norm_num
  · have htpos : 0 < a + b := lt_of_le_of_ne (by positivity) (Ne.symm ht)
    constructor
    · positivity
    · rw [div_le_one (by norm_num), div_mul_div_comm, div_le_iff (by positivity)]
      nlinarith [sq_nonneg (a - b)]

theorem up_scaling_factor_nonneg (y : List ℚ) : 0 ≤ up_scaling_factor y := by
  rw [up_scaling_factor]
  split_ifs <;> positivity

theorem normalized_balanced_purity_bounds (y : List ℚ) (labels : List ℕ) (c : ℕ) :
    0 ≤ normalized_balanced_purity y labels c ∧
      normalized_balanced_purity y labels c ≤ 1 := by
  rw [normalized_balanced_purity, x_tot]
  exact purity_core_bounds _ _
    (mul_nonneg (Nat.cast_nonneg _) (up_scaling_factor_nonneg y)) (Nat.cast_nonneg _)

theorem small_large_labels (y : List ℚ) :
    (small_label y = 0 ∧ large_label y = 1) ∨ (small_label y = 1 ∧ large_label y = 0) := by
  rw [small_label, large_label]
  split_ifs
  · exact Or.inl ⟨rfl, rfl⟩
  · exact Or.inr ⟨rfl, rfl⟩

/-- Claim C8: per-cluster normalized balanced purities lie in `[0, 4]` before
averaging; a perfectly separated binary target gives averaged score `0`; and
with class counts `n0 = 90`, `n1 = 10` the minority up-scaling factor is
exactly `9`. -/
theorem balanced_purity_claims (y : List ℚ) (labels : List ℕ)
    (hbin : ∀ v ∈ y, v = 0 ∨ v = 1)
    (h0 : 0 < countZeros y) (h1 : 0 < countOnes y) :
    (∀ p ∈ balanced_purities y labels, 0 ≤ p ∧ p ≤ 4) ∧
    ((∀ c ∈ uniqueSorted labels,
        countVal (yCluster y labels c) 0 = 0 ∨ countVal (yCluster y labels c) 1 = 0) →
      compute_balanced_average_purity y labels = 0) ∧
    (countZeros y = 90 → countOnes y = 10 → up_scaling_factor y = 9) := by
  refine ⟨?_, ?_, ?_⟩
  · intro p hp
    obtain ⟨c, _, rfl⟩ := List.mem_map.1 hp
    have hb := normalized_balanced_purity_bounds y labels c
    exact ⟨hb.1, by linarith [hb.2]⟩
  · intro hsep
    have hzero : ∀ c ∈ uniqueSorted labels, normalized_balanced_purity y labels c = 0 := by
      intro c hc
      have hcase : countVal (yCluster y labels c) (small_label y) = 0 ∨
          countVal (yCluster y labels c) (large_label y) = 0 := by
        rcases small_large_labels y with ⟨hs, hl⟩ | ⟨hs, hl⟩ <;> rw [hs, hl] <;>
          rcases hsep c hc with h | h
        · exact Or.inl h
        · exact Or.inr h
        · exact Or.inr h
        · exact Or.inl h
      rw [normalized_balanced_purity]
      rcases hcase with h | h
      · rw [x_small, h, Nat.cast_zero, zero_mul, zero_div, zero_mul, zero_div]
      · rw [x_large, h, Nat.cast_zero, zero_div, mul_zero, zero_div]
    rw [compute_balanced_average_purity,
      List.sum_eq_zero (fun p hp => by
        obtain ⟨c, hc, rfl⟩ := List.mem_map.1 hp
        exact hzero c hc),
      zero_div]
  · intro h90 h10
    rw [up_scaling_factor, h90, h10, if_neg (by omega)]
    norm_num

/-- Witness for `balanced_purity_claims`: 90 zeros and 10 ones, perfectly
separated into two clusters. -/
theorem balanced_purity_claims_witness :
    (∀ v ∈ List.replicate 90 (0 : ℚ) ++ List.replicate 10 (1 : ℚ), v = 0 ∨ v = 1) ∧
    0 < countZeros (List.replicate 90 (0 : ℚ) ++ List.replicate 10 (1 : ℚ)) ∧
    0 < countOnes (List.replicate 90 (0 : ℚ) ++ List.replicate 10 (1 : ℚ)) ∧
    ((∀ p ∈ balanced_purities (List.replicate 90 (0 : ℚ) ++ List.replicate 10 (1 : ℚ))
        (List.replicate 90 0 ++ List.replicate 10 1), 0 ≤ p ∧ p ≤ 4) ∧
      ((∀ c ∈ uniqueSorted (List.replicate 90 0 ++ List.replicate 10 1),
          countVal (yCluster (List.replicate 90 (0 : ℚ) ++ List.replicate 10 (1 : ℚ))
            (List.replicate 90 0 ++ List.replicate 10 1) c) 0 = 0 ∨
          countVal (yCluster (List.replicate 90 (0 : ℚ) ++ List.replicate 10 (1 : ℚ))
            (List.replicate 90 0 ++ List.replicate 10 1) c) 1 = 0) →
        compute_balanced_average_purity
          (List.replicate 90 (0 : ℚ) ++ List.replicate 10 (1 : ℚ))
          (List.replicate 90 0 ++ List.replicate 10 1) = 0) ∧
      (countZeros (List.replicate 90 (0 : ℚ) ++ List.replicate 10 (1 : ℚ)) = 90 →
        countOnes (List.replicate 90 (0 : ℚ) ++ List.replicate 10 (1 : ℚ)) = 10 →
        up_scaling_factor (List.replicate 90 (0 : ℚ) ++ List.replicate 10 (1 : ℚ)) = 9)) := by
  refine ⟨by decide, by decide, by decide, ?_⟩
  exact balanced_purity_claims _ _ (by decide) (by decide) (by decide)

/-- Claim C10: `compute_balanced_average_purity` divides by the minority
class count; with both labels present (and every cluster nonempty by
construction) the divisors are positive and each per-cluster normalized
balanced purity lies in `[0, 1]`. -/
theorem balanced_purity_well_defined (y : List ℚ) (labels : List ℕ)
    (hlen : labels.length = y.length)
    (hbin : ∀ v ∈ y, v = 0 ∨ v = 1)
    (h0 : 0 < countZeros y) (h1 : 0 < countOnes y) :
    (0 < if countZeros y ≤ countOnes y then countZeros y else countOnes y) ∧
    0 < up_scaling_factor y ∧
    ∀ c ∈ uniqueSorted labels,
      0 < x_tot y labels c ∧ 0 ≤ normalized_balanced_purity y labels c ∧
        normalized_balanced_purity y labels c ≤ 1 := by
  have hfac : 0 < up_scaling_factor y := by
    rw [up_scaling_factor]
    split_ifs with hcase
    · exact div_pos (by exact_mod_cast h1) (by exact_mod_cast h0)
    · exact div_pos (by exact_mod_cast h0) (by exact_mod_cast h1)
  refine ⟨by split_ifs <;> omega, hfac, ?_⟩
  intro c hc
  refine ⟨?_, (normalized_balanced_purity_bounds y labels c).1,
    (normalized_balanced_purity_bounds y labels c).2⟩
  have hmem : c ∈ labels := mem_uniqueSorted.1 hc
  obtain ⟨i, hi, hie⟩ := List.mem_iff_getElem.1 hmem
  have hyc : y.getD i 0 ∈ yCluster y labels c := by
    rw [yCluster]
    refine List.mem_map.2 ⟨i, ?_, rfl⟩
    simp only [List.mem_filter, List.mem_range, decide_eq_true_eq]
    refine ⟨hi, ?_⟩
    rw [List.getD_eq_getElem _ _ hi]
    exact hie
  have hval : y.getD i 0 = 0 ∨ y.getD i 0 = 1 := by
    apply hbin
    exact getD_mem_of_lt _ _ (by omega) _
  have hsl : y.getD i 0 = small_label y ∨ y.getD i 0 = large_label y := by
    rcases small_large_labels y with ⟨hs, hl⟩ | ⟨hs, hl⟩ <;> rw [hs, hl] <;> tauto
  have hxs : 0 ≤ x_small y labels c :=
    mul_nonneg (Nat.cast_nonneg _) (up_scaling_factor_nonneg y)
  have hxl : 0 ≤ x_large y labels c := Nat.cast_nonneg _
  rcases hsl with hsl | hsl
  · have hcount : 0 < countVal (yCluster y labels c) (small_label y) := by
      rw [countVal, List.countP_pos]
      exact ⟨y.getD i 0, hyc, by simp only [decide_eq_true_eq]; exact hsl⟩
    have hpos : 0 < x_small y labels c := by
      rw [x_small]
      exact mul_pos (by exact_mod_cast hcount) hfac
    rw [x_tot]
    linarith
  · have hcount : 0 < countVal (yCluster y labels c) (large_label y) := by
      rw [countVal, List.countP_pos]
      exact ⟨y.getD i 0, hyc, by simp only [decide_eq_true_eq]; exact hsl⟩
    have hpos : 0 < x_large y labels c := by
      rw [x_large]
      exact_mod_cast hcount
    rw [x_tot]
    linarith

/-- Witness for `balanced_purity_well_defined` at a small concrete binary
target. -/
theorem balanced_purity_well_defined_witness :
    (([0, 0, 1] : List ℕ).length = ([0, 0, 1] : List ℚ).length) ∧
    (∀ v ∈ ([0, 0, 1] : List ℚ), v = 0 ∨ v = 1) ∧
    0 < countZeros [0, 0, 1] ∧ 0 < countOnes [0, 0, 1] ∧
    ((0 < if countZeros ([0, 0, 1] : List ℚ) ≤ countOnes [0, 0, 1] then
        countZeros ([0, 0, 1] : List ℚ) else countOnes [0, 0, 1]) ∧
      0 < up_scaling_factor [0, 0, 1] ∧
      ∀ c ∈ uniqueSorted [0, 0, 1],
        0 < x_tot [0, 0, 1] [0, 0, 1] c ∧
          0 ≤ normalized_balanced_purity [0, 0, 1] [0, 0, 1] c ∧
          normalized_balanced_purity [0, 0, 1] [0, 0, 1] c ≤ 1) := by
  refine ⟨by decide, by decide, by decide, by decide, ?_⟩
  exact balanced_purity_well_defined [0, 0, 1] [0, 0, 1] (by decide) (by decide)
    (by decide) (by decide)

end Purity

section OptimizeK

/-- Task kind, chosen in `forest_guided_clustering` from the model class. -/
inductive Method
  | clustering
  | regression
deriving DecidableEq

/-- State of the `optimizeK` loop (source lines 58–59), extended with the
observable logs: `scored` records each `(k, score)` for which a quality score
was computed (the source's score print), `visited` records every candidate
`k` the loop iterated over. -/
structure OptState where
  score_min : WithTop ℚ
  optimal_k : ℕ
  scored : List (ℕ × ℚ)
  visited : List ℕ
deriving DecidableEq

/-- The global generator stream advanced by `off` draws. -/
def shiftStream (stream : ℕ → ℕ) (off : ℕ) : ℕ → ℕ := fun i => stream (off + i)

/-- Quality score of a labeling (source lines 78–83): balanced average
purity for classification, total within-cluster variation for regression. -/
def scoreOf (y : List ℚ) (labels : List ℕ) (method : Method) : ℚ :=
  match method with
  | .clustering => compute_balanced_average_purity y labels
  | .regression => compute_total_within_cluster_variation y labels

/-- Python `min` over a list of values: `ValueError` (`none`) on the empty
list. -/
def pythonMin (l : List (WithBot ℚ)) : Option (WithBot ℚ) :=
  match l with
  | [] => none
  | x :: xs => some (xs.foldl min x)

/-- Stability table for candidate `k` inside the `optimizeK` loop: candidate
at loop position `k - 2` starts after `(k - 2) * bootstraps * n` draws of the
ambient generator have been consumed by the earlier candidates. -/
def candStability (D : Mat) (clusterFam : ℕ → Mat → List ℕ) (bootstraps seed : ℕ)
    (stream : ℕ → ℕ) (k : ℕ) : Option (List ℕ × (ℕ → WithBot ℚ)) :=
  compute_stability_indices D (clusterFam k) bootstraps seed
    (shiftStream stream ((k - 2) * bootstraps * D.length))

/-- The `min_index` computed for candidate `k` (source line 73). -/
def candMinIdx (D : Mat) (clusterFam : ℕ → Mat → List ℕ) (bootstraps seed : ℕ)
    (stream : ℕ → ℕ) (k : ℕ) : Option (WithBot ℚ) :=
  (candStability D clusterFam bootstraps seed stream k).bind
    (fun p => pythonMin (p.1.map p.2))

/-- One iteration of the `optimizeK` loop body (source lines 61–89). -/
def optStep (D : Mat) (y : List ℚ) (discart_value : ℚ) (bootstraps seed : ℕ)
    (method : Method) (clusterFam : ℕ → Mat → List ℕ) (stream : ℕ → ℕ)
    (st : OptState) (k : ℕ) : Option OptState :=
  (candMinIdx D clusterFam bootstraps seed stream k).map (fun minIdx =>
    if (discart_value : WithBot ℚ) < minIdx then
      if (scoreOf y (clusterFam k D) method : WithTop ℚ) < st.score_min then
        ⟨(scoreOf y (clusterFam k D) method : WithTop ℚ), k,
          st.scored ++ [(k, scoreOf y (clusterFam k D) method)], st.visited ++ [k]⟩
      else
        ⟨st.score_min, st.optimal_k,
          st.scored ++ [(k, scoreOf y (clusterFam k D) method)], st.visited ++ [k]⟩
    else ⟨st.score_min, st.optimal_k, st.scored, st.visited ++ [k]⟩)

/-- Embedding of `optimizeK` (source lines 50–90): iterate the candidates
`range(2, max_K)` from `score_min = inf`, `optimal_k = 1`, rejecting any `k`
whose minimum stability index is not strictly above `discart_value` and
keeping the best scored `k` under strict `<`. -/
def optimizeK (D : Mat) (y : List ℚ) (maxK : ℕ) (discart_value : ℚ)
    (bootstraps seed : ℕ) (method : Method) (clusterFam : ℕ → Mat → List ℕ)
    (stream : ℕ → ℕ) : Option OptState :=
  (List.range' 2 (maxK - 2)).foldl
    (fun acc k => acc.bind (fun st =>
      optStep D y discart_value bootstraps seed method clusterFam stream st k))
    (some ⟨⊤, 1, [], []⟩)

/-- The `(k, score)` entry that candidate `k` contributes to the scored log:
`none` when the candidate is rejected as unstable. -/
def scoredEntry (D : Mat) (y : List ℚ) (discart_value : ℚ) (bootstraps seed : ℕ)
    (method : Method) (clusterFam : ℕ → Mat → List ℕ) (stream : ℕ → ℕ) (k : ℕ) :
    Option (ℕ × ℚ) :=
  (candMinIdx D clusterFam bootstraps seed stream k).bind (fun minIdx =>
    if (discart_value : WithBot ℚ) < minIdx then
      some (k, scoreOf y (clusterFam k D) method)
    else none)

/-- Invariant of the selection state: `optimal_k` is the least scored
candidate attaining the minimal score, or the default `1` when nothing was
scored. -/
def OptInv (st : OptState) : Prop :=
  (st.scored = [] → st.score_min = ⊤ ∧ st.optimal_k = 1) ∧
  (st.scored ≠ [] → ∃ s : ℚ, st.score_min = (s : WithTop ℚ) ∧
    (st.optimal_k, s) ∈ st.scored ∧ (∀ p ∈ st.scored, s ≤ p.2) ∧
    (∀ p ∈ st.scored, p.2 = s → st.optimal_k ≤ p.1))

theorem optStep_spec (D : Mat) (y : List ℚ) (dv : ℚ) (B seed : ℕ) (method : Method)
    (cf : ℕ → Mat → List ℕ) (stream : ℕ → ℕ) (st : OptState) (k : ℕ)
    (hinv : OptInv st) (hbound : ∀ p ∈ st.scored, p.1 < k) (st' : OptState)
    (hstep : optStep D y dv B seed method cf stream st k = some st') :
    OptInv st' ∧
      st'.scored = st.scored ++ (scoredEntry D y dv B seed method cf stream k).toList ∧
      st'.visited = st.visited ++ [k] ∧
      ∀ p ∈ st'.scored, p.1 ≤ k := by
  rw [optStep] at hstep
  cases hmi : candMinIdx D cf B seed stream k with
  | none =>
    rw [hmi] at hstep
    simp at hstep
  | some minIdx =>
    rw [hmi, Option.map_some'] at hstep
    obtain rfl := Option.some_injective _ hstep
    have hse : scoredEntry D y dv B seed method cf stream k =
        if (dv : WithBot ℚ) < minIdx then
          some (k, scoreOf y (cf k D) method) else none := by
      rw [scoredEntry, hmi, Option.some_bind]
    by_cases hthr : (dv : WithBot ℚ) < minIdx
    · rw [if_pos hthr]
      rw [if_pos hthr] at hse
      by_cases hlt : (scoreOf y (cf k D) method : WithTop ℚ) < st.score_min
      · rw [if_pos hlt]
        refine ⟨⟨fun h => absurd h (by simp), fun _ => ?_⟩, by simp [hse], rfl, ?_⟩
        · refine ⟨scoreOf y (cf k D) method, rfl,
            List.mem_append_right _ (List.mem_singleton_self _), ?_, ?_⟩
          · intro p hp
            rcases List.mem_append.1 hp with hp | hp
            · by_cases hsc : st.scored = []
              · rw [hsc] at hp
                simp at hp
              · obtain ⟨s, hs, _, hmin, _⟩ := hinv.2 hsc
                have hlt2 : scoreOf y (cf k D) method < s := by
                  rw [hs] at hlt
                  exact_mod_cast hlt
                exact le_trans (le_of_lt hlt2) (hmin p hp)
            · rw [List.mem_singleton.1 hp]
          · intro p hp hpeq
            rcases List.mem_append.1 hp with hp | hp
            · by_cases hsc : st.scored = []
              · rw [hsc] at hp
                simp at hp
              · obtain ⟨s, hs, _, hmin, _⟩ := hinv.2 hsc
                have hlt2 : scoreOf y (cf k D) method < s := by
                  rw [hs] at hlt
                  exact_mod_cast hlt
                have hsle := hmin p hp
                rw [hpeq] at hsle
                exact absurd hsle (not_le.2 hlt2)
            · rw [List.mem_singleton.1 hp]
        · intro p hp
          rcases List.mem_append.1 hp with hp | hp
          · exact le_of_lt (hbound p hp)
          · rw [List.mem_singleton.1 hp]
      · rw [if_neg hlt]
        have hsc : st.scored ≠ [] := by
          intro hcon
          obtain ⟨hmin, _⟩ := hinv.1 hcon
          rw [hmin] at hlt
          exact hlt (WithTop.coe_lt_top _)
        obtain ⟨s, hs, hmem, hmin, hties⟩ := hinv.2 hsc
        have hles : s ≤ scoreOf y (cf k D) method := by
          have hge := le_of_not_lt hlt
          rw [hs] at hge
          exact_mod_cast hge
        refine ⟨⟨fun h => absurd h (by simp [hsc]), fun _ => ?_⟩, by simp [hse], rfl, ?_⟩
        · refine ⟨s, hs, List.mem_append_left _ hmem, ?_, ?_⟩
          · intro p hp
            rcases List.mem_append.1 hp with hp | hp
            · exact hmin p hp
            · rw [List.mem_singleton.1 hp]
              exact hles
          · intro p hp hpeq
            rcases List.mem_append.1 hp with hp | hp
            · exact hties p hp hpeq
            · rw [List.mem_singleton.1 hp]
              exact le_of_lt (hbound _ hmem)
        · intro p hp
          rcases List.mem_append.1 hp with hp | hp
          · exact le_of_lt (hbound p hp)
          · rw [List.mem_singleton.1 hp]
    · rw [if_neg hthr]
      rw [if_neg hthr] at hse
      exact ⟨⟨hinv.1, hinv.2⟩, by simp [hse], rfl,
        fun p hp => le_of_lt (hbound p hp)⟩

theorem optFold_spec (D : Mat) (y : List ℚ) (dv : ℚ) (B seed : ℕ) (method : Method)
    (cf : ℕ → Mat → List ℕ) (stream : ℕ → ℕ) :
    ∀ (l : List ℕ) (st : OptState), OptInv st → l.Pairwise (· < ·) →
      (∀ p ∈ st.scored, ∀ k ∈ l, p.1 < k) →
      ∀ res, l.foldl (fun acc k => acc.bind (fun st =>
          optStep D y dv B seed method cf stream st k)) (some st) = some res →
        OptInv res ∧
          res.scored = st.scored ++
            l.filterMap (scoredEntry D y dv B seed method cf stream) ∧
          res.visited = st.visited ++ l := by
  intro l
  induction l with
  | nil =>
    intro st hinv _ _ res hres
    obtain rfl := Option.some_injective _ hres
    exact ⟨hinv, by simp, by simp⟩
  | cons k ks ih =>
    intro st hinv hpw hbound res hres
    rw [List.foldl_cons, Option.some_bind] at hres
    cases hstep : optStep D y dv B seed method cf stream st k with
    | none =>
      rw [hstep, foldl_bind_none_start] at hres
      exact absurd hres (by simp)
    | some st' =>
      rw [hstep] at hres
      have hk : ∀ p ∈ st.scored, p.1 < k :=
        fun p hp => hbound p hp k (List.mem_cons_self _ _)
      obtain ⟨hinv', hsc', hv', hb'⟩ :=
        optStep_spec D y dv B seed method cf stream st k hinv hk st' hstep
      have hbound' : ∀ p ∈ st'.scored, ∀ k' ∈ ks, p.1 < k' := by
        intro p hp k' hk'
        have h1 : p.1 ≤ k := hb' p hp
        have h2 : k < k' := (List.pairwise_cons.1 hpw).1 k' hk'
        omega
      obtain ⟨hinvr, hscr, hvr⟩ := ih st' hinv' (List.pairwise_cons.1 hpw).2 hbound' res hres
      refine ⟨hinvr, ?_, ?_⟩
      · rw [hscr, hsc', List.append_assoc]
        congr 1
        rw [List.filterMap_cons]
        cases hsecase : scoredEntry D y dv B seed method cf stream k
        · simp [Option.toList]
        · simp [Option.toList]
      · rw [hvr, hv', List.append_assoc]
        rfl

theorem scoredEntry_fst {D : Mat} {y : List ℚ} {dv : ℚ} {B seed : ℕ} {method : Method}
    {cf : ℕ → Mat → List ℕ} {stream : ℕ → ℕ} {k : ℕ} {p : ℕ × ℚ}
    (h : scoredEntry D y dv B seed method cf stream k = some p) : p.1 = k := by
  rw [scoredEntry] at h
  cases hmi : candMinIdx D cf B seed stream k with
  | none =>
    rw [hmi] at h
    simp at h
  | some minIdx =>
    rw [hmi, Option.some_bind] at h
    by_cases hthr : (dv : WithBot ℚ) < minIdx
    · rw [if_pos hthr] at h
      obtain rfl := Option.some_injective _ h
      rfl
    · rw [if_neg hthr] at h
      exact Option.noConfusion h

/-- Claim C2: in every successfully completed run of `optimizeK`, a candidate
`k` whose minimum per-cluster stability does not exceed `discart_value` is
never scored; if no candidate was scored the returned `k` is `1`; otherwise
the returned `k` is a scored candidate with minimal quality score, and among
equal scores the smallest `k` wins (strict `<` comparison).  `visited`
confirms the candidates iterated are exactly `range(2, max_K)`. -/
theorem optimizeK_selection (D : Mat) (y : List ℚ) (maxK : ℕ) (dv : ℚ)
    (B seed : ℕ) (method : Method) (cf : ℕ → Mat → List ℕ) (stream : ℕ → ℕ)
    (res : OptState)
    (hrun : optimizeK D y maxK dv B seed method cf stream = some res) :
    (∀ k mi, candMinIdx D cf B seed stream k = some mi →
      ¬((dv : WithBot ℚ) < mi) → k ∉ res.scored.map Prod.fst) ∧
    (res.scored = [] → res.optimal_k = 1) ∧
    (res.scored ≠ [] → ∃ s : ℚ, (res.optimal_k, s) ∈ res.scored ∧
      (∀ p ∈ res.scored, s ≤ p.2) ∧
      (∀ p ∈ res.scored, p.2 = s → res.optimal_k ≤ p.1)) ∧
    res.visited = List.range' 2 (maxK - 2) := by
  rw [optimizeK] at hrun
  obtain ⟨hinv, hsc, hv⟩ := optFold_spec D y dv B seed method cf stream
    (List.range' 2 (maxK - 2)) ⟨⊤, 1, [], []⟩
    ⟨fun _ => ⟨rfl, rfl⟩, fun h => absurd rfl h⟩
    (List.pairwise_lt_range' 2 (maxK - 2))
    (by intro p hp; simp at hp)
    res hrun
  simp only [List.nil_append] at hsc hv
  refine ⟨?_, ?_, ?_, hv⟩
  · intro k mi hmi hthr hcon
    obtain ⟨p, hp, hpk⟩ := List.mem_map.1 hcon
    rw [hsc] at hp
    obtain ⟨k', _, hk'⟩ := List.mem_filterMap.1 hp
    have hpk' : p.1 = k' := scoredEntry_fst hk'
    rw [hpk] at hpk'
    rw [← hpk'] at hk'
    rw [scoredEntry, hmi, Option.some_bind, if_neg hthr] at hk'
    exact Option.noConfusion hk'
  · intro h
    exact (hinv.1 h).2
  · intro h
    obtain ⟨s, _, hmem, hmin, hties⟩ := hinv.2 h
    exact ⟨s, hmem, hmin, hties⟩

/-- Witness for `optimizeK_selection`: a 5-point all-zero distance matrix,
the mod-`k` labeling family, one bootstrap round on a constant stream — every
candidate is rejected as unstable and the fallback `k = 1` is returned. -/
theorem optimizeK_selection_witness :
    (optimizeK (List.replicate 5 (List.replicate 5 (0 : ℚ))) [0, 1, 2, 3, 4] 4
        (6/10) 1 42 Method.regression
        (fun k M => (List.range M.length).map (fun i => i % k)) (fun _ => 0) =
      some ⟨⊤, 1, [], [2, 3]⟩) ∧
    ((∀ k mi, candMinIdx (List.replicate 5 (List.replicate 5 (0 : ℚ)))
        (fun k M => (List.range M.length).map (fun i => i % k)) 1 42 (fun _ => 0) k =
          some mi →
      ¬(((6/10 : ℚ) : WithBot ℚ) < mi) →
      k ∉ (OptState.mk ⊤ 1 [] [2, 3]).scored.map Prod.fst) ∧
    ((OptState.mk ⊤ 1 [] [2, 3]).scored = [] → (OptState.mk ⊤ 1 [] [2, 3]).optimal_k = 1) ∧
    ((OptState.mk ⊤ 1 [] [2, 3]).scored ≠ [] → ∃ s : ℚ,
      ((OptState.mk ⊤ 1 [] [2, 3]).optimal_k, s) ∈ (OptState.mk ⊤ 1 [] [2, 3]).scored ∧
      (∀ p ∈ (OptState.mk ⊤ 1 [] [2, 3]).scored, s ≤ p.2) ∧
      (∀ p ∈ (OptState.mk ⊤ 1 [] [2, 3]).scored, p.2 = s →
        (OptState.mk ⊤ 1 [] [2, 3]).optimal_k ≤ p.1)) ∧
    (OptState.mk ⊤ 1 [] [2, 3]).visited = List.range' 2 (4 - 2)) := by
  constructor
  · with_unfolding_all decide
  · exact optimizeK_selection (List.replicate 5 (List.replicate 5 (0 : ℚ)))
      [0, 1, 2, 3, 4] 4 (6/10) 1 42 Method.regression
      (fun k M => (List.range M.length).map (fun i => i % k)) (fun _ => 0)
      ⟨⊤, 1, [], [2, 3]⟩ (by with_unfolding_all decide)

end OptimizeK

section ClaimC3

/-- Embedding of the k-selection part of `forest_guided_clustering` (source
lines 37–44).  The function accepts the caller's `max_K` but, exactly as
source line 38 does (`optimizeK(distanceMatrix, X, y, max_K = 6, ...)`), it
passes the literal `6` to `optimizeK` instead of the parameter; all other
arguments are forwarded.  The threshold is `optimizeK`'s default
`discart_value = 0.6`.  Returns the chosen `k` and the list of candidate `k`
values the search visited. -/
def forest_guided_clustering_selectK (D : Mat) (y : List ℚ) (maxK : ℕ)
    (bootstraps seed : ℕ) (method : Method) (clusterFam : ℕ → Mat → List ℕ)
    (stream : ℕ → ℕ) (number_of_clusters : Option ℕ) : Option (ℕ × List ℕ) :=
  match number_of_clusters with
  | some k => some (k, [])
  | none =>
    (optimizeK D y 6 (6/10) bootstraps seed method clusterFam stream).map
      (fun r => (r.optimal_k, r.visited))

set_option maxRecDepth 8000 in
/-- Claim C3 is false on the code (a code bug): with `number_of_clusters =
None`, the candidate range does not depend on the caller's `max_K` at all —
line 38 hard-codes `max_K = 6` in the call to `optimizeK` — and a concrete
run with `max_K = 3` visits the candidates `[2, 3, 4, 5]` instead of the
claimed `[2, m) = [2]`. -/
theorem fgc_ignores_maxK :
    (∀ (m m' : ℕ) (D : Mat) (y : List ℚ) (bootstraps seed : ℕ) (method : Method)
      (clusterFam : ℕ → Mat → List ℕ) (stream : ℕ → ℕ),
      forest_guided_clustering_selectK D y m bootstraps seed method clusterFam stream none =
        forest_guided_clustering_selectK D y m' bootstraps seed method clusterFam
          stream none) ∧
    (forest_guided_clustering_selectK (List.replicate 5 (List.replicate 5 (0 : ℚ)))
        [0, 1, 2, 3, 4] 3 1 42 Method.regression
        (fun k M => (List.range M.length).map (fun i => i % k)) (fun _ => 0) none).map
      Prod.snd = some [2, 3, 4, 5] ∧
    [2, 3, 4, 5] ≠ List.range' 2 (3 - 2) := by
  refine ⟨fun m m' D y bootstraps seed method clusterFam stream => rfl, ?_, by decide⟩
  with_unfolding_all decide

end ClaimC3

section ClaimC9

/-- Generic matrix-threading lemma: when every step reads the threaded
matrix and hands it back unchanged, the fold equals the unthreaded fold paired
with the original matrix. -/
theorem foldl_tracked {α : Type} (g : Mat → ℕ → α → Option α) :
    ∀ (l : List ℕ) (a : α) (D : Mat),
      l.foldl (fun acc k => acc.bind (fun st => (g st.2 k st.1).map (fun s => (s, st.2))))
        (some (a, D)) =
      (l.foldl (fun acc k => acc.bind (fun st => g D k st)) (some a)).map
        (fun r => (r, D)) := by
  intro l
  induction l with
  | nil =>
    intro a D
    rfl
  | cons k ks ih =>
    intro a D
    rw [List.foldl_cons, List.foldl_cons, Option.some_bind, Option.some_bind]
    cases hg : g D k a with
    | none =>
      rw [Option.map_none', foldl_bind_none_start, foldl_bind_none_start, Option.map_none']
    | some a' =>
      rw [Option.map_some']
      exact ih a' D

/-- Tracked variant of `compute_stability_indices`: the distance matrix is
threaded through every bootstrap round as explicit state.  Each round reads
the threaded matrix (resampling via numpy advanced indexing, which builds a
fresh array, and `KMedoids(...).fit`, which does not write to its input) and
returns it untouched; the final component is the matrix the function holds
after all rounds. -/
def compute_stability_indicesT (D : Mat) (cluster_method : Mat → List ℕ)
    (bootstraps seed : ℕ) (stream : ℕ → ℕ) :
    Option ((List ℕ × (ℕ → WithBot ℚ)) × Mat) :=
  if ∀ row ∈ D, row.length = D.length then
    ((List.range bootstraps).foldl
        (fun acc r => acc.bind (fun st =>
          (stabilityRound st.2 cluster_method stream (r * st.2.length)
              (uniqueSorted (cluster_method D)) (translateLabels (cluster_method D) none)
              st.1).map (fun f => (f, st.2))))
        (some (fun _ => (0 : WithBot ℚ), D))).map
      (fun st => ((uniqueSorted (cluster_method D), fun c => divB (st.1 c) bootstraps),
        st.2))
  else none

/-- Tracked variant of `optimizeK`: the distance matrix is threaded through
every candidate iteration; each iteration clusters and resamples from the
threaded matrix and returns it untouched. -/
def optimizeKT (D : Mat) (y : List ℚ) (maxK : ℕ) (discart_value : ℚ)
    (bootstraps seed : ℕ) (method : Method) (clusterFam : ℕ → Mat → List ℕ)
    (stream : ℕ → ℕ) : Option (OptState × Mat) :=
  (List.range' 2 (maxK - 2)).foldl
    (fun acc k => acc.bind (fun st =>
      (optStep st.2 y discart_value bootstraps seed method clusterFam stream st.1 k).map
        (fun s => (s, st.2))))
    (some (⟨⊤, 1, [], []⟩, D))

/-- Claim C9: throughout an entire k-selection run — every candidate `k` and
every bootstrap round — the original distance matrix is never mutated: the
tracked runs return exactly the untracked results paired with the unchanged
input matrix, each bootstrap round operating on a freshly built resampled
copy. -/
theorem distance_matrix_never_mutated (D : Mat) (y : List ℚ) (maxK : ℕ)
    (discart_value : ℚ) (bootstraps seed : ℕ) (method : Method)
    (clusterFam : ℕ → Mat → List ℕ) (cm : Mat → List ℕ) (stream : ℕ → ℕ) :
    optimizeKT D y maxK discart_value bootstraps seed method clusterFam stream =
      (optimizeK D y maxK discart_value bootstraps seed method clusterFam stream).map
        (fun r => (r, D)) ∧
    compute_stability_indicesT D cm bootstraps seed stream =
      (compute_stability_indices D cm bootstraps seed stream).map (fun p => (p, D)) := by
  constructor
  · rw [optimizeKT, optimizeK]
    exact foldl_tracked
      (fun M k st => optStep M y discart_value bootstraps seed method clusterFam stream st k)
      (List.range' 2 (maxK - 2)) ⟨⊤, 1, [], []⟩ D
  · rw [compute_stability_indicesT, compute_stability_indices]
    split_ifs with hsq
    · rw [foldl_tracked
        (fun M r f => stabilityRound M cm stream (r * M.length)
          (uniqueSorted (cm D)) (translateLabels (cm D) none) f)
        (List.range bootstraps) (fun _ => (0 : WithBot ℚ)) D]
      rw [Option.map_map, Option.map_map]
      rfl
    · rfl

end ClaimC9
